import Mathlib

/-!
Readers of pstack: `MemReader`, `CacheReader` (src/reader.cc)

A shallow embedding of the readers of `reader.cc` and the properties of the
paging cache.

Conventions of the embedding.

* `off_t` and `size_t` are 64 bit wide. A value of either type is carried as
  its bit pattern, a natural number below `2 ^ 64`; arithmetic that can wrap
  is written with an explicit `% 2 ^ 64`. A non-negative `off_t` is a pattern
  below `2 ^ 63`; `toSigned` gives the signed reading where the source
  compares signed values.
* A `char` is a `UInt8`; a buffer or a `std::string` is a `List UInt8`.
* A C++ exception is the `none` of an `Option`.
* The class declarations (`libpstack/util.h`) are not among the sources, so
  `PAGESIZE`, `MAXPAGES` and the content of a page just made by `new Page()`
  are parameters (`Consts`).
-/

namespace Pstack

abbrev Byte := UInt8

/-- Signed reading of a 64 bit pattern (conversion to `off_t`). -/
def toSigned (x : Nat) : Int :=
  if x % 2 ^ 64 < 2 ^ 63 then ((x % 2 ^ 64 : Nat) : Int)
  else ((x % 2 ^ 64 : Nat) : Int) - 2 ^ 64

/-- Unsigned subtraction `a - b` of two `size_t` values, wrapping. -/
def subWrap (a b : Nat) : Nat := (a + 2 ^ 64 - b) % 2 ^ 64

/-- Unsigned addition of two 64 bit values, wrapping. -/
def addWrap (a b : Nat) : Nat := (a + b) % 2 ^ 64

/-- Bytes that `memcpy(ptr, src + start, n)` stores through `ptr`.  Where the
source range runs past the end of `src` the C++ behaviour is undefined; the
embedding then yields only the bytes that lie inside `src`. -/
def memcpy (src : List Byte) (start n : Nat) : List Byte :=
  (src.drop start).take n

/-- Outcome of a `read` that returns: the returned count and the bytes stored
through `ptr`. -/
structure ReadResult where
  rc : Nat
  bytes : List Byte
deriving DecidableEq, Repr

/-- The abstract `Reader`: `read(off, count, ptr)` and `size()`; `none` is a
raised exception. -/
structure Reader where
  read : Nat → Nat → Option ReadResult
  size : Option Nat

/-! ## MemReader -/

/-- Class `MemReader`: a length and the memory `data` points to. -/
structure MemReader where
  len : Nat
  data : List Byte
deriving DecidableEq, Repr

/-- Method `MemReader::read` (reader.cc:92-101): raise when `off > off_t(len)`,
else copy `rc = min(count, len - size_t(off))` bytes from `data + off` and
return `rc`. -/
def MemReader.read (m : MemReader) (off count : Nat) : Option ReadResult :=
  if toSigned off > toSigned m.len then
    none
  else
    let rc := min count (subWrap m.len off)
    some { rc := rc, bytes := memcpy m.data off rc }

/-- Modelled from the spec: `MemReader::size` is in the missing class
declaration; the spec gives it as the configured length, never failing.  With
`MemReader::read` it makes the reader seen through the `Reader` interface. -/
def MemReader.toReader (m : MemReader) : Reader :=
  { read := m.read, size := some m.len }

/-! ## CacheReader -/

/-- Class `CacheReader::Page`: start offset, number of valid bytes, buffer. -/
structure Page where
  offset : Nat
  len : Nat
  data : List Byte
deriving DecidableEq, Repr

/-- What the missing class declaration fixes: the two constants and the
content of the object `new Page()` yields (indeterminate in C++; `newPage k`
is the page of the allocation made while `k` pages exist). -/
structure Consts where
  PAGESIZE : Nat
  MAXPAGES : Nat
  newPage : Nat → Page

/-- Method `CacheReader::Page::load` (reader.cc:138-149).  A successful
upstream read overwrites the first `len` bytes of the buffer and leaves the rest; a raised
exception is caught, sets `len = 0` and leaves `offset` and the buffer as
they were. -/
def Page.load (k : Consts) (r : Reader) (offset_ : Nat) (p : Page) : Page :=
  match r.read offset_ k.PAGESIZE with
  | some res =>
      { offset := offset_, len := res.rc,
        data := res.bytes ++ p.data.drop res.bytes.length }
  | none => { p with len := 0 }

/-- String cache entry `CacheEnt`. -/
structure CacheEnt where
  value : List Byte
  isNew : Bool
deriving DecidableEq, Repr

/-- State of a `CacheReader`: the page list (front = most recently used) and
the string cache, with the list of upstream `read` calls issued so far
(offset, count) kept as a ghost field. -/
structure CacheReader where
  pages : List Page
  stringCache : List (Nat × CacheEnt)
  upstreamReads : List (Nat × Nat)
deriving DecidableEq, Repr

/-- A freshly constructed `CacheReader`. -/
def CacheReader.empty : CacheReader :=
  { pages := [], stringCache := [], upstreamReads := [] }

/-- The search loop of `getPage` (reader.cc:167-178): the first page whose
offset is `pageoff`, with the list left after erasing it. -/
def findPage (pageoff : Nat) : List Page → Option (Page × List Page)
  | [] => none
  | p :: ps =>
      if p.offset = pageoff then some (p, ps)
      else
        match findPage pageoff ps with
        | some (q, rest) => some (q, p :: rest)
        | none => none

/-- The miss branch of `getPage` up to the load (reader.cc:179-184): the page
object to load into (the tail when the list holds `MAXPAGES` pages, else a
new page) and the pages kept behind it. -/
def missSlot (k : Consts) (pages : List Page) : Page × List Page :=
  if pages.length = k.MAXPAGES then
    match pages.getLast? with
    | some p => (p, pages.dropLast)
    | none => (k.newPage pages.length, pages)
  else (k.newPage pages.length, pages)

/-- Method `CacheReader::getPage` (reader.cc:162-188): the page handed back
(never null) and the new state.  A hit moves the page to the front; a miss
loads into the slot of `missSlot` and pushes it to the front. -/
def CacheReader.getPage (k : Consts) (up : Reader) (c : CacheReader)
    (pageoff : Nat) : Page × CacheReader :=
  match findPage pageoff c.pages with
  | some (p, rest) => (p, { c with pages := p :: rest })
  | none =>
      let slot := missSlot k c.pages
      let p := Page.load k up pageoff slot.1
      (p, { c with pages := p :: slot.2,
                   upstreamReads := c.upstreamReads ++ [(pageoff, k.PAGESIZE)] })

/-- One `memcpy` of the loop of `CacheReader::read` (ghost record). -/
structure Copy where
  offsetOfPageInFile : Nat
  offsetOfDataInPage : Nat
  chunk : Nat
  len : Nat
deriving DecidableEq, Repr

/-- Outcome of `CacheReader::read`: returned count, bytes stored through
`ptr`, and the record of the copies made. -/
structure CacheRead where
  rc : Nat
  bytes : List Byte
  copies : List Copy
deriving DecidableEq, Repr

/-- The loop of `CacheReader::read` (reader.cc:195-210) with `fuel` bounding
the number of iterations: `none` when the fuel runs out.  Yields the final
`off`, the bytes stored through `ptr` (those of this iteration, then those of
the later ones), the copies made and the state.  The test `page == nullptr`
has no branch here, `getPage` always handing back a page; the page offset
passed to `getPage` is a multiple of `PAGESIZE`, as the `assert` of
`Page::load` demands. -/
def CacheReader.readLoop (k : Consts) (up : Reader) :
    Nat → CacheReader → Nat → Nat →
    Option (Nat × List Byte × List Copy × CacheReader)
  | 0, _, _, _ => none
  | fuel + 1, c, off, count =>
      if count = 0 then some (off, [], [], c)
      else
        let offsetOfDataInPage := off % k.PAGESIZE
        let offsetOfPageInFile := off - offsetOfDataInPage
        let pg := CacheReader.getPage k up c offsetOfPageInFile
        let page := pg.1
        let chunk := min (subWrap page.len offsetOfDataInPage) count
        let piece := memcpy page.data offsetOfDataInPage chunk
        let cp : Copy := { offsetOfPageInFile := offsetOfPageInFile,
                           offsetOfDataInPage := offsetOfDataInPage,
                           chunk := chunk, len := page.len }
        if page.len ≠ k.PAGESIZE then some (addWrap off chunk, piece, [cp], pg.2)
        else
          match CacheReader.readLoop k up fuel pg.2 (addWrap off chunk)
                  (count - chunk) with
          | some (off1, out, tr, c1) => some (off1, piece ++ out, cp :: tr, c1)
          | none => none

/-- Method `CacheReader::read` (reader.cc:190-212).  The loop is given
`count + 1` iterations, which it never exhausts (see `readLoop_isSome`); the
returned count is `off - startoff`. -/
def CacheReader.read (k : Consts) (up : Reader) (c : CacheReader)
    (off count : Nat) : Option (CacheRead × CacheReader) :=
  match CacheReader.readLoop k up (count + 1) c off count with
  | some (off1, out, tr, c1) =>
      some ({ rc := subWrap off1 off, bytes := out, copies := tr }, c1)
  | none => none

/-- Modelled from the spec: the constructor of `CacheEnt` is in the missing
class declaration; the spec describes the flag as telling first access from
cache hit, so a new entry is flagged new and holds the empty string. -/
def CacheEnt.fresh : CacheEnt := { value := [], isNew := true }

/-- Lookup in the string cache (`std::unordered_map<off_t, CacheEnt>`). -/
def cacheFind (off : Nat) : List (Nat × CacheEnt) → Option CacheEnt
  | [] => none
  | (o, e) :: rest => if o = off then some e else cacheFind off rest

/-- Assignment to the entry of `off`, which is present. -/
def cacheSet (off : Nat) (e : CacheEnt) :
    List (Nat × CacheEnt) → List (Nat × CacheEnt)
  | [] => []
  | (o, x) :: rest =>
      if o = off then (o, e) :: rest else (o, x) :: cacheSet off e rest

/-- The loop of `Reader::readString` (reader.cc:113-120) run on a
`CacheReader`, whose `read` is `CacheReader::read` and never raises; `s` is
the value `size()` gave.  `none` when the fuel runs out. -/
def CacheReader.readStringLoop (k : Consts) (up : Reader) :
    Nat → CacheReader → Nat → Nat → List Byte →
    Option (List Byte × CacheReader)
  | 0, _, _, _, _ => none
  | fuel + 1, c, offset, s, res =>
      if ¬ (toSigned offset < toSigned s) then some (res, c)
      else
        match CacheReader.read k up c offset 1 with
        | none => none
        | some (r, c1) =>
            if r.rc ≠ 1 then some (res, c1)
            else
              -- the one byte stored in `c`; a copy of one byte starts
              -- below PAGESIZE and so lies inside the page buffer
              let ch := r.bytes.headD 0
              if ch = 0 then some (res, c1)
              else CacheReader.readStringLoop k up fuel c1 (addWrap offset 1) s
                     (res ++ [ch])

/-- Method `CacheReader::readString` (reader.cc:214-223).  The outer `none` is
fuel running out (never, see `readString_isSome`); the inner `none` is the
exception of `size()`, raised after `stringCache[off]` has made the entry. -/
def CacheReader.readString (k : Consts) (up : Reader) (c : CacheReader)
    (off : Nat) : Option (Option (List Byte) × CacheReader) :=
  let found := cacheFind off c.stringCache
  let entry := found.getD CacheEnt.fresh
  let c0 : CacheReader :=
    match found with
    | some _ => c
    | none => { c with stringCache := (off, CacheEnt.fresh) :: c.stringCache }
  if entry.isNew then
    match up.size with
    | none => some (none, c0)
    | some s =>
        match CacheReader.readStringLoop k up
                ((toSigned s - toSigned off).toNat + 1) c0 off s [] with
        | none => none
        | some (res, c1) =>
            some (some res,
              { c1 with stringCache :=
                  cacheSet off { value := res, isNew := false } c1.stringCache })
  else some (some entry.value, c0)

/-- A call made on a `CacheReader`. -/
inductive Op where
  | read (off count : Nat)
  | readString (off : Nat)
deriving DecidableEq, Repr

/-- State after one call. -/
def CacheReader.step (k : Consts) (up : Reader) (c : CacheReader) :
    Op → Option CacheReader
  | Op.read off count => (CacheReader.read k up c off count).map (·.2)
  | Op.readString off => (CacheReader.readString k up c off).map (·.2)

/-- State after a sequence of calls. -/
def CacheReader.run (k : Consts) (up : Reader) :
    List Op → CacheReader → Option CacheReader
  | [], c => some c
  | op :: ops, c =>
      match CacheReader.step k up c op with
      | some c1 => CacheReader.run k up ops c1
      | none => none

/-- Constants a compiler accepts and the code can run with: a positive
`PAGESIZE` that is a `size_t`, a positive `MAXPAGES`, and page buffers of
`PAGESIZE` bytes. -/
structure Consts.WF (k : Consts) : Prop where
  pagesize_pos : 0 < k.PAGESIZE
  pagesize_lt : k.PAGESIZE < 2 ^ 64
  maxpages_pos : 0 < k.MAXPAGES
  buf_len : ∀ i, (k.newPage i).data.length = k.PAGESIZE

/-- Modelled from the spec: the constants of the missing class declaration
have the original values 4096 and 16; new pages are taken zero-filled. -/
def stdConsts : Consts :=
  { PAGESIZE := 4096, MAXPAGES := 16,
    newPage := fun _ => { offset := 0, len := 0, data := List.replicate 4096 0 } }

/-- Small constants for worked examples: pages of 4 bytes, 2 pages. -/
def smallConsts : Consts :=
  { PAGESIZE := 4, MAXPAGES := 2,
    newPage := fun _ => { offset := 0, len := 0, data := [0, 0, 0, 0] } }

/-- The cache of the spec's scenario: pages of 4 bytes, 16 pages. -/
def scenarioConsts : Consts :=
  { PAGESIZE := 4, MAXPAGES := 16,
    newPage := fun _ => { offset := 0, len := 0, data := [0, 0, 0, 0] } }

/-- The memory source of the spec's scenario, bytes "0123456789". -/
def digits : MemReader :=
  { len := 10, data := [48, 49, 50, 51, 52, 53, 54, 55, 56, 57] }

/-! ## Reader::readString on a reader without state, FileReader -/

/-- The loop of `Reader::readString` (reader.cc:113-120) on a reader whose
`read` keeps no state; `s` is the value `size()` gave.  The outer `none` is
fuel running out; the inner `none` is an exception of `read`, which nothing
in `readString` catches. -/
def Reader.readStringLoop (r : Reader) :
    Nat → Nat → Nat → List Byte → Option (Option (List Byte))
  | 0, _, _, _ => none
  | fuel + 1, offset, s, res =>
      if ¬ (toSigned offset < toSigned s) then some (some res)
      else
        match r.read offset 1 with
        | none => some none
        | some rr =>
            if rr.rc ≠ 1 then some (some res)
            else
              let ch := rr.bytes.headD 0
              if ch = 0 then some (some res)
              else Reader.readStringLoop r fuel (addWrap offset 1) s (res ++ [ch])

/-- Method `Reader::readString` (reader.cc:109-122) on a reader without state.
The outer `none` is fuel running out (the loop is given one iteration per
offset below `size()` and one more); the inner `none` is an exception, of
`size()` or of a `read`. -/
def Reader.readString (r : Reader) (offset : Nat) : Option (Option (List Byte)) :=
  match r.size with
  | none => some none
  | some s =>
      Reader.readStringLoop r ((toSigned s - toSigned offset).toNat + 1) offset s []

/-- Method `FileReader::read` (reader.cc:124-136), given what
`pread(file, ptr, count, off)` answers for `(off, count)`: its return value
(`-1` for an error) and the bytes it stored.  An error raises; any other
return value is handed back as the count. -/
def FileReader.read (pread : Nat → Nat → Int × List Byte) (off count : Nat) :
    Option ReadResult :=
  let a := pread off count
  if a.1 = -1 then none else some { rc := a.1.toNat, bytes := a.2 }

/-- State of a `FileReader` that `size()` uses: the memoized `fileSize` (an
`off_t` pattern, `2 ^ 64 - 1` being the `-1` the constructor stores), with the
number of `fstat` calls issued so far kept as a ghost field. -/
structure FileReader where
  fileSize : Nat
  fstatCalls : Nat
deriving DecidableEq, Repr

/-- A `FileReader` as the constructor leaves it (reader.cc:72-79):
`fileSize(-1)`. -/
def FileReader.new : FileReader := { fileSize := 2 ^ 64 - 1, fstatCalls := 0 }

/-- Method `FileReader::size` (reader.cc:34-45), given what `fstat` answers if
it is called now: `none` for the return value `-1`, else `st_size`.  Yields
the returned size (`none` for the raised exception) and the new state. -/
def FileReader.size (fstat : Option Nat) (f : FileReader) :
    Option Nat × FileReader :=
  if f.fileSize = 2 ^ 64 - 1 then
    match fstat with
    | none => (none, { f with fstatCalls := f.fstatCalls + 1 })
    | some st => (some st, { fileSize := st, fstatCalls := f.fstatCalls + 1 })
  else (some f.fileSize, f)

/-- Successive `size()` calls, one per `fstat` answer of the list: the values
returned and the final state. -/
def FileReader.sizes : List (Option Nat) → FileReader →
    List (Option Nat) × FileReader
  | [], f => ([], f)
  | a :: as, f =>
      let r := FileReader.size a f
      let rest := FileReader.sizes as r.2
      (r.1 :: rest.1, rest.2)

/-- The memory source of the spec's string scenario, bytes "ab\0cd". -/
def abzcd : MemReader := { len := 5, data := [97, 98, 0, 99, 100] }

/-- A `FileReader` over the 4 bytes "abcd" whose `pread` fails at offset 2 and
elsewhere gives the bytes of the file. -/
def faultyFile : Reader :=
  { read := FileReader.read (fun off count =>
      if off = 2 then (-1, [])
      else (((memcpy [97, 98, 99, 100] off count).length : Int),
            memcpy [97, 98, 99, 100] off count)),
    size := some 4 }

/-- A memory source of 16 full pages of 4096 bytes (65536 zero bytes). -/
def sixteenPages : MemReader := { len := 65536, data := List.replicate 65536 0 }

/-- A cache state with two pages over "0123456789", page 4 in front of
page 0. -/
def twoPages : CacheReader :=
  { pages := [{ offset := 4, len := 4, data := [52, 53, 54, 55] },
              { offset := 0, len := 4, data := [48, 49, 50, 51] }],
    stringCache := [], upstreamReads := [(0, 4), (4, 4)] }

/-- One read of one byte in each of the 16 pages of `sixteenPages`. -/
def fillSixteen : List (Nat × Nat) :=
  [(0, 1), (4096, 1), (8192, 1), (12288, 1), (16384, 1), (20480, 1), (24576, 1),
   (28672, 1), (32768, 1), (36864, 1), (40960, 1), (45056, 1), (49152, 1), (53248, 1),
   (57344, 1), (61440, 1)]

/-! ## Notions used in the statements -/

/-- A page agrees with the upstream: the upstream read of a page at its
offset succeeds, with as many bytes as the page has valid, equal to the first
bytes of the buffer. -/
def Page.Coherent (k : Consts) (up : Reader) (p : Page) : Prop :=
  ∃ res, up.read p.offset k.PAGESIZE = some res ∧ p.len = res.rc
    ∧ p.data.take res.rc = res.bytes

/-- The calls `read(off, count)` of a list of (offset, count) pairs. -/
def readOps (rs : List (Nat × Nat)) : List Op :=
  rs.map (fun r => Op.read r.1 r.2)

/-- Start offset of the page that holds `off` (`offsetOfPageInFile`). -/
def pageOf (k : Consts) (off : Nat) : Nat := off - off % k.PAGESIZE

/-- Offsets recorded in the page list, front first. -/
def CacheReader.offsets (c : CacheReader) : List Nat := c.pages.map (·.offset)

/-- State after the `getPage` calls for the offsets `qs`, in order. -/
def getPages (k : Consts) (up : Reader) (c : CacheReader) (qs : List Nat) :
    CacheReader :=
  qs.foldl (fun c q => (CacheReader.getPage k up c q).2) c

/-- A file-like reader over fixed content whose reads never raise: a read
gives the bytes from `off` on, fewer near the end, none beyond it (what
`FileReader::read` returns when `pread` does not fail). -/
def plainFile (content : List Byte) : Reader :=
  { read := fun off count =>
      some { rc := (memcpy content off count).length,
             bytes := memcpy content off count },
    size := some content.length }

/-- An upstream that gives `count` zero bytes at every offset and never
raises (a `FileReader` on a file like /dev/zero). -/
def devZero : Reader :=
  { read := fun _ count => some { rc := count, bytes := List.replicate count 0 },
    size := some 0 }

/-- A file whose `size()` still says 4 after it was cut to the 2 bytes "ab":
reads give the bytes left, none from offset 2 on, and never raise. -/
def truncatedFile : Reader :=
  { read := (plainFile [97, 98]).read, size := some 4 }

/-- An upstream whose reads all succeed and honour the contract of `read`:
at most `count` bytes, as many stored as the returned count says. -/
def Reader.Succeeds (up : Reader) : Prop :=
  ∀ o n, ∃ res, up.read o n = some res ∧ res.bytes.length = res.rc ∧ res.rc ≤ n

/-- Number of pages that cover `n` bytes from a page boundary on:
`ceil(n / PAGESIZE)`. -/
def pagesCovering (k : Consts) (n : Nat) : Nat := (n + k.PAGESIZE - 1) / k.PAGESIZE

/-- The string cache has settled what `readString(o)` gives: either the entry
of `o` holds the value `v` and is no longer new, or `size()` raises and the
entry is still new. -/
def Settled (up : Reader) (o : Nat) (r : Option (List Byte)) (c : CacheReader) :
    Prop :=
  match r with
  | some v => cacheFind o c.stringCache = some { value := v, isNew := false }
  | none => up.size = none ∧ ∃ e, cacheFind o c.stringCache = some e ∧ e.isNew = true

/-! ## Theorems -/

/-! ### Machine arithmetic and copies -/

theorem toSigned_of_lt {x : Nat} (h : x < 2 ^ 63) : toSigned x = (x : Int) := by
  have h1 : x % 2 ^ 64 = x := Nat.mod_eq_of_lt (by omega)
  unfold toSigned; rw [h1, if_pos h]

theorem subWrap_of_le {a b : Nat} (hb : b ≤ a) (ha : a < 2 ^ 64) :
    subWrap a b = a - b := by
  unfold subWrap; omega

theorem addWrap_of_lt {a b : Nat} (h : a + b < 2 ^ 64) : addWrap a b = a + b := by
  unfold addWrap; omega

theorem memcpy_length {src : List Byte} {start n : Nat}
    (h : start + n ≤ src.length) : (memcpy src start n).length = n := by
  unfold memcpy; simp; omega

/-! ### MemReader -/

/-- A read that starts inside the buffer or at its end. -/
theorem MemReader.read_of_le (m : MemReader) (off count : Nat)
    (hlen : m.len < 2 ^ 63) (hoff : off ≤ m.len) :
    m.read off count
      = some { rc := min count (m.len - off),
               bytes := (m.data.drop off).take (min count (m.len - off)) } := by
  unfold MemReader.read
  have h1 : ¬ (toSigned off > toSigned m.len) := by
    rw [toSigned_of_lt hlen, toSigned_of_lt (by omega)]; omega
  simp only [h1, if_false]
  rw [subWrap_of_le hoff (by omega)]
  rfl

/-- C5: `MemReader::read(off, count)` with `0 <= off <= len` returns
`rc = min(count, len - off)` and stores exactly the `rc` bytes
`data[off .. off+rc)`. -/
theorem C5_memReader_read_result (m : MemReader) (off count : Nat)
    (hdata : m.data.length = m.len) (hlen : m.len < 2 ^ 63) (hoff : off ≤ m.len) :
    m.read off count
      = some { rc := min count (m.len - off),
               bytes := (m.data.drop off).take (min count (m.len - off)) }
    ∧ ((m.data.drop off).take (min count (m.len - off))).length
        = min count (m.len - off) := by
  refine ⟨MemReader.read_of_le m off count hlen hoff, ?_⟩
  simp; omega

/-- C5 at the scenario of the spec: over "0123456789", `read(5, 10)` returns
the 5 bytes "56789". -/
theorem C5_memReader_read_result_witness :
    digits.data.length = digits.len ∧ digits.len < 2 ^ 63 ∧ 5 ≤ digits.len ∧
    digits.read 5 10 = some { rc := 5, bytes := [53, 54, 55, 56, 57] } :=
  ⟨by decide, by decide, by decide,
   (C5_memReader_read_result digits 5 10 (by decide) (by decide) (by decide)).1⟩

/-- C6: `MemReader::read` raises exactly when the starting offset (read as
the signed `off_t` it is) is strictly greater than the configured length; for
a non-negative offset (a pattern below `2 ^ 63`, written `off % 2 ^ 63`) that
is `off > len` on the natural numbers; `read(len, count)` returns 0 bytes for
every count. -/
theorem C6_memReader_read_raises_iff (m : MemReader) (off count : Nat)
    (hlen : m.len < 2 ^ 63) :
    (m.read off count = none ↔ toSigned off > (m.len : Int))
    ∧ (m.read (off % 2 ^ 63) count = none ↔ off % 2 ^ 63 > m.len)
    ∧ m.read m.len count = some { rc := 0, bytes := [] } := by
  have hs : toSigned m.len = (m.len : Int) := toSigned_of_lt hlen
  have hiff : ∀ x, (m.read x count = none ↔ toSigned x > (m.len : Int)) := by
    intro x
    unfold MemReader.read
    rw [hs]
    by_cases h : toSigned x > (m.len : Int) <;> simp [h]
  refine ⟨hiff off, ?_, ?_⟩
  · rw [hiff, toSigned_of_lt (Nat.mod_lt _ (by decide))]
    omega
  · rw [MemReader.read_of_le m m.len count hlen (le_refl _)]
    simp

/-- C6 over "0123456789": `read(11, 3)` raises, `read(10, 3)` returns 0 bytes. -/
theorem C6_memReader_read_raises_iff_witness :
    digits.len < 2 ^ 63 ∧
    ((digits.read 11 3 = none ↔ toSigned 11 > (digits.len : Int))
     ∧ (digits.read (11 % 2 ^ 63) 3 = none ↔ 11 % 2 ^ 63 > digits.len)
     ∧ digits.read digits.len 3 = some { rc := 0, bytes := [] }) :=
  ⟨by decide, C6_memReader_read_raises_iff digits 11 3 (by decide)⟩

/-! ### The page list -/

theorem findPage_some {q : Nat} {l : List Page} {p : Page} {rest : List Page}
    (h : findPage q l = some (p, rest)) :
    p.offset = q ∧ (p :: rest).Perm l := by
  induction l generalizing p rest with
  | nil => simp [findPage] at h
  | cons a l ih =>
    unfold findPage at h
    by_cases ha : a.offset = q
    · simp only [ha, if_true, Option.some.injEq, Prod.mk.injEq] at h
      obtain ⟨rfl, rfl⟩ := h
      exact ⟨ha, List.Perm.refl _⟩
    · simp only [ha, if_false] at h
      cases hf : findPage q l with
      | none => simp [hf] at h
      | some pr =>
        obtain ⟨p1, r1⟩ := pr
        simp only [hf, Option.some.injEq, Prod.mk.injEq] at h
        obtain ⟨rfl, rfl⟩ := h
        obtain ⟨h1, h2⟩ := ih hf
        exact ⟨h1, (List.Perm.swap a p1 r1).trans (List.Perm.cons a h2)⟩

theorem findPage_none {q : Nat} {l : List Page} (h : findPage q l = none) :
    ∀ p ∈ l, p.offset ≠ q := by
  induction l with
  | nil => simp
  | cons a l ih =>
    unfold findPage at h
    by_cases ha : a.offset = q
    · simp [ha] at h
    · simp only [ha, if_false] at h
      cases hf : findPage q l with
      | none =>
        intro p hp
        rcases List.mem_cons.1 hp with rfl | hp
        · exact ha
        · exact ih hf p hp
      | some pr => simp [hf] at h

theorem findPage_isSome_of_mem {q : Nat} {l : List Page} {p : Page}
    (hp : p ∈ l) (hq : p.offset = q) : ∃ r, findPage q l = some r := by
  cases hf : findPage q l with
  | none => exact absurd hq (findPage_none hf p hp)
  | some r => exact ⟨r, rfl⟩

theorem getPage_hit {k : Consts} {up : Reader} {c : CacheReader} {q : Nat}
    {p : Page} {rest : List Page} (h : findPage q c.pages = some (p, rest)) :
    CacheReader.getPage k up c q = (p, { c with pages := p :: rest }) := by
  unfold CacheReader.getPage; rw [h]

theorem getPage_miss {k : Consts} {up : Reader} {c : CacheReader} {q : Nat}
    (h : findPage q c.pages = none) :
    CacheReader.getPage k up c q
      = (Page.load k up q (missSlot k c.pages).1,
         { c with pages := Page.load k up q (missSlot k c.pages).1
                             :: (missSlot k c.pages).2,
                  upstreamReads := c.upstreamReads ++ [(q, k.PAGESIZE)] }) := by
  unfold CacheReader.getPage; rw [h]

theorem missSlot_length {k : Consts} {pages : List Page}
    (hM : 0 < k.MAXPAGES) (h : pages.length ≤ k.MAXPAGES) :
    (missSlot k pages).2.length + 1 ≤ k.MAXPAGES := by
  unfold missSlot
  by_cases hl : pages.length = k.MAXPAGES
  · rw [if_pos hl]
    cases hg : pages.getLast? with
    | none =>
      rw [List.getLast?_eq_none_iff] at hg
      subst hg; simp at hl; omega
    | some p => simp; omega
  · rw [if_neg hl]; simp; omega

theorem missSlot_subset {k : Consts} {pages : List Page} :
    ∀ p ∈ (missSlot k pages).2, p ∈ pages := by
  unfold missSlot
  intro p hp
  by_cases hl : pages.length = k.MAXPAGES
  · rw [if_pos hl] at hp
    cases hg : pages.getLast? with
    | none => rw [hg] at hp; exact hp
    | some q => rw [hg] at hp; exact List.dropLast_subset _ hp
  · rw [if_neg hl] at hp; exact hp

theorem getPage_length_le {k : Consts} (up : Reader) (c : CacheReader) (q : Nat)
    (hM : 0 < k.MAXPAGES) (h : c.pages.length ≤ k.MAXPAGES) :
    (CacheReader.getPage k up c q).2.pages.length ≤ k.MAXPAGES := by
  cases hf : findPage q c.pages with
  | none =>
    rw [getPage_miss hf]
    simpa using missSlot_length hM h
  | some pr =>
    obtain ⟨p, rest⟩ := pr
    rw [getPage_hit hf]
    have := (findPage_some hf).2.length_eq
    simp at this ⊢
    omega

theorem getPage_stringCache {k : Consts} (up : Reader) (c : CacheReader) (q : Nat) :
    (CacheReader.getPage k up c q).2.stringCache = c.stringCache := by
  cases hf : findPage q c.pages with
  | none => rw [getPage_miss hf]
  | some pr => obtain ⟨p, rest⟩ := pr; rw [getPage_hit hf]

/-! ### The read loop returns -/

theorem readLoop_zero {k : Consts} {up : Reader} {fuel : Nat} {c : CacheReader}
    {off : Nat} : CacheReader.readLoop k up (fuel + 1) c off 0 = some (off, [], [], c) := by
  simp [CacheReader.readLoop]

/-- One iteration of the loop, for a positive count. -/
theorem readLoop_succ {k : Consts} {up : Reader} {fuel : Nat} {c : CacheReader}
    {off count : Nat} (hc : count ≠ 0) :
    CacheReader.readLoop k up (fuel + 1) c off count
      = (let pg := CacheReader.getPage k up c (off - off % k.PAGESIZE)
         let chunk := min (subWrap pg.1.len (off % k.PAGESIZE)) count
         let piece := memcpy pg.1.data (off % k.PAGESIZE) chunk
         let cp : Copy := { offsetOfPageInFile := off - off % k.PAGESIZE,
                            offsetOfDataInPage := off % k.PAGESIZE,
                            chunk := chunk, len := pg.1.len }
         if pg.1.len ≠ k.PAGESIZE then some (addWrap off chunk, piece, [cp], pg.2)
         else
           match CacheReader.readLoop k up fuel pg.2 (addWrap off chunk)
                   (count - chunk) with
           | some (off1, out, tr, c1) => some (off1, piece ++ out, cp :: tr, c1)
           | none => none) := by
  rw [CacheReader.readLoop]; simp only [hc, if_false]

theorem chunk_pos_of_full {k : Consts} (hk : k.WF) (off : Nat) {count : Nat}
    (hc : count ≠ 0) :
    0 < min (subWrap k.PAGESIZE (off % k.PAGESIZE)) count := by
  have h1 : off % k.PAGESIZE < k.PAGESIZE := Nat.mod_lt _ hk.pagesize_pos
  rw [subWrap_of_le (le_of_lt h1) hk.pagesize_lt]
  omega

theorem readLoop_isSome {k : Consts} (hk : k.WF) (up : Reader) :
    ∀ (fuel : Nat) (c : CacheReader) (off count : Nat), count < fuel →
      ∃ r, CacheReader.readLoop k up fuel c off count = some r := by
  intro fuel
  induction fuel with
  | zero => intro c off count h; omega
  | succ fuel ih =>
    intro c off count h
    by_cases hc : count = 0
    · subst hc; exact ⟨_, readLoop_zero⟩
    · rw [readLoop_succ hc]
      simp only
      by_cases hl : (CacheReader.getPage k up c (off - off % k.PAGESIZE)).1.len
          ≠ k.PAGESIZE
      · rw [if_pos hl]; exact ⟨_, rfl⟩
      · rw [if_neg hl]
        have hl2 := not_not.1 hl
        rw [hl2]
        have hpos := chunk_pos_of_full hk off hc
        obtain ⟨r, hr⟩ := ih (CacheReader.getPage k up c (off - off % k.PAGESIZE)).2
          (addWrap off (min (subWrap k.PAGESIZE (off % k.PAGESIZE)) count))
          (count - min (subWrap k.PAGESIZE (off % k.PAGESIZE)) count) (by omega)
        rw [hr]
        exact ⟨_, rfl⟩

theorem read_isSome {k : Consts} (hk : k.WF) (up : Reader) (c : CacheReader)
    (off count : Nat) : ∃ r, CacheReader.read k up c off count = some r := by
  obtain ⟨r, hr⟩ := readLoop_isSome hk up (count + 1) c off count (by omega)
  unfold CacheReader.read
  rw [hr]
  exact ⟨_, rfl⟩

/-! ### Properties of the page list kept by every call -/

theorem readLoop_pages_inv {k : Consts} {up : Reader} (I : List Page → Prop)
    (hI : ∀ c q, I c.pages → I (CacheReader.getPage k up c q).2.pages) :
    ∀ (fuel : Nat) (c : CacheReader) (off count : Nat)
      (r : Nat × List Byte × List Copy × CacheReader),
      CacheReader.readLoop k up fuel c off count = some r →
      I c.pages → I r.2.2.2.pages := by
  intro fuel
  induction fuel with
  | zero => intro c off count r h; simp [CacheReader.readLoop] at h
  | succ fuel ih =>
    intro c off count r h hc
    by_cases h0 : count = 0
    · subst h0
      rw [readLoop_zero] at h
      cases h; exact hc
    · rw [readLoop_succ h0] at h
      simp only at h
      have hg := hI c (off - off % k.PAGESIZE) hc
      split at h
      · cases h; exact hg
      · split at h
        · rename_i off1 out tr c1 heq
          cases h
          exact ih _ _ _ (off1, out, tr, c1) heq hg
        · cases h

theorem read_pages_inv {k : Consts} {up : Reader} (I : List Page → Prop)
    (hI : ∀ c q, I c.pages → I (CacheReader.getPage k up c q).2.pages)
    {c : CacheReader} {off count : Nat} {r : CacheRead × CacheReader}
    (h : CacheReader.read k up c off count = some r) (hc : I c.pages) :
    I r.2.pages := by
  unfold CacheReader.read at h
  split at h
  · rename_i off1 out tr c1 heq
    cases h
    exact readLoop_pages_inv I hI _ _ _ _ _ heq hc
  · cases h

theorem readStringLoop_pages_inv {k : Consts} {up : Reader} (I : List Page → Prop)
    (hI : ∀ c q, I c.pages → I (CacheReader.getPage k up c q).2.pages) :
    ∀ (fuel : Nat) (c : CacheReader) (offset s : Nat) (res : List Byte)
      (r : List Byte × CacheReader),
      CacheReader.readStringLoop k up fuel c offset s res = some r →
      I c.pages → I r.2.pages := by
  intro fuel
  induction fuel with
  | zero => intro c offset s res r h; simp [CacheReader.readStringLoop] at h
  | succ fuel ih =>
    intro c offset s res r h hc
    rw [CacheReader.readStringLoop] at h
    split at h
    · cases h; exact hc
    · split at h
      · cases h
      · rename_i rr c1 heq
        have h1 := read_pages_inv I hI heq hc
        split at h
        · cases h; exact h1
        · simp only at h
          split at h
          · cases h; exact h1
          · exact ih _ _ _ _ _ h h1

theorem readString_pages_inv {k : Consts} {up : Reader} (I : List Page → Prop)
    (hI : ∀ c q, I c.pages → I (CacheReader.getPage k up c q).2.pages)
    {c : CacheReader} {off : Nat} {r : Option (List Byte) × CacheReader}
    (h : CacheReader.readString k up c off = some r) (hc : I c.pages) :
    I r.2.pages := by
  unfold CacheReader.readString at h
  simp only at h
  have h0 : I (match cacheFind off c.stringCache with
      | some _ => c
      | none => { c with stringCache := (off, CacheEnt.fresh) :: c.stringCache }).pages := by
    cases cacheFind off c.stringCache <;> exact hc
  split at h
  · split at h
    · cases h; exact h0
    · split at h
      · cases h
      · rename_i res c1 heq
        cases h
        exact readStringLoop_pages_inv I hI _ _ _ _ _ _ heq h0
  · cases h; exact h0

theorem step_pages_inv {k : Consts} {up : Reader} (I : List Page → Prop)
    (hI : ∀ c q, I c.pages → I (CacheReader.getPage k up c q).2.pages)
    {c c1 : CacheReader} {op : Op}
    (h : CacheReader.step k up c op = some c1) (hc : I c.pages) : I c1.pages := by
  cases op with
  | read off count =>
    simp only [CacheReader.step, Option.map_eq_some'] at h
    obtain ⟨r, hr, rfl⟩ := h
    exact read_pages_inv I hI hr hc
  | readString off =>
    simp only [CacheReader.step, Option.map_eq_some'] at h
    obtain ⟨r, hr, rfl⟩ := h
    exact readString_pages_inv I hI hr hc

theorem run_pages_inv {k : Consts} {up : Reader} (I : List Page → Prop)
    (hI : ∀ c q, I c.pages → I (CacheReader.getPage k up c q).2.pages) :
    ∀ (ops : List Op) (c c1 : CacheReader),
      CacheReader.run k up ops c = some c1 → I c.pages → I c1.pages := by
  intro ops
  induction ops with
  | nil => intro c c1 h hc; simp [CacheReader.run] at h; subst h; exact hc
  | cons op ops ih =>
    intro c c1 h hc
    rw [CacheReader.run] at h
    split at h
    · rename_i c2 heq
      exact ih _ _ h (step_pages_inv I hI heq hc)
    · cases h

/-! ### Every call returns -/

theorem toSigned_lt (x : Nat) : toSigned x < 2 ^ 63 := by
  unfold toSigned; split <;> omega

theorem toSigned_addWrap_one {x : Nat} (h : toSigned x < 2 ^ 63 - 1) :
    toSigned (addWrap x 1) = toSigned x + 1 := by
  unfold toSigned addWrap at *
  split at h <;> split <;> omega

theorem readStringLoop_isSome {k : Consts} (hk : k.WF) (up : Reader) :
    ∀ (fuel : Nat) (c : CacheReader) (offset s : Nat) (res : List Byte),
      (toSigned s - toSigned offset).toNat < fuel →
      ∃ r, CacheReader.readStringLoop k up fuel c offset s res = some r := by
  intro fuel
  induction fuel with
  | zero => intro c offset s res h; omega
  | succ fuel ih =>
    intro c offset s res h
    rw [CacheReader.readStringLoop]
    by_cases hlt : toSigned offset < toSigned s
    · rw [if_neg (not_not.2 hlt)]
      obtain ⟨⟨rr, c1⟩, hr⟩ := read_isSome hk up c offset 1
      rw [hr]
      simp only
      split
      · exact ⟨_, rfl⟩
      · split
        · exact ⟨_, rfl⟩
        · apply ih
          have := toSigned_lt s
          rw [toSigned_addWrap_one (by omega)]
          omega
    · rw [if_pos hlt]; exact ⟨_, rfl⟩

theorem readString_isSome {k : Consts} (hk : k.WF) (up : Reader) (c : CacheReader)
    (off : Nat) : ∃ r, CacheReader.readString k up c off = some r := by
  unfold CacheReader.readString
  simp only
  split
  · split
    · exact ⟨_, rfl⟩
    · rename_i s hs
      obtain ⟨⟨res, c1⟩, hr⟩ := readStringLoop_isSome hk up
        ((toSigned s - toSigned off).toNat + 1)
        (match cacheFind off c.stringCache with
          | some _ => c
          | none => { c with stringCache := (off, CacheEnt.fresh) :: c.stringCache })
        off s [] (by omega)
      rw [hr]
      exact ⟨_, rfl⟩
  · exact ⟨_, rfl⟩

theorem step_isSome {k : Consts} (hk : k.WF) (up : Reader) (c : CacheReader)
    (op : Op) : ∃ c1, CacheReader.step k up c op = some c1 := by
  cases op with
  | read off count =>
    obtain ⟨r, hr⟩ := read_isSome hk up c off count
    exact ⟨r.2, by simp [CacheReader.step, hr]⟩
  | readString off =>
    obtain ⟨r, hr⟩ := readString_isSome hk up c off
    exact ⟨r.2, by simp [CacheReader.step, hr]⟩

theorem run_isSome {k : Consts} (hk : k.WF) (up : Reader) :
    ∀ (ops : List Op) (c : CacheReader), ∃ c1, CacheReader.run k up ops c = some c1 := by
  intro ops
  induction ops with
  | nil => intro c; exact ⟨c, rfl⟩
  | cons op ops ih =>
    intro c
    obtain ⟨c2, h2⟩ := step_isSome hk up c op
    obtain ⟨c1, h1⟩ := ih c2
    exact ⟨c1, by rw [CacheReader.run, h2]; exact h1⟩

theorem smallConsts_wf : smallConsts.WF :=
  ⟨by decide, by decide, by decide, fun _ => rfl⟩

theorem scenarioConsts_wf : scenarioConsts.WF :=
  ⟨by decide, by decide, by decide, fun _ => rfl⟩

theorem stdConsts_wf : stdConsts.WF :=
  ⟨by decide, by decide, by decide, fun _ => List.length_replicate 4096 (0 : Byte)⟩

/-- C7: from the empty cache, every sequence of `read` / `readString` calls,
over any upstream (its reads and its `size` may raise), returns and leaves at
most `MAXPAGES` pages in the list. -/
theorem C7_capacity_invariant (k : Consts) (hk : k.WF) (up : Reader) (ops : List Op) :
    ∃ c, CacheReader.run k up ops CacheReader.empty = some c
      ∧ c.pages.length ≤ k.MAXPAGES := by
  obtain ⟨c, hc⟩ := run_isSome hk up ops CacheReader.empty
  refine ⟨c, hc, ?_⟩
  exact run_pages_inv (fun l => l.length ≤ k.MAXPAGES)
    (fun c q h => getPage_length_le up c q hk.maxpages_pos h) ops _ _ hc
    (by simp [CacheReader.empty])


/-- C7 with 2 pages of 4 bytes over "0123456789": a read over three pages, a
read whose page load raises upstream, and a string read. -/
theorem C7_capacity_invariant_witness :
    smallConsts.WF ∧
    ∃ c, CacheReader.run smallConsts digits.toReader
           [Op.read 0 10, Op.read 17 1, Op.readString 3] CacheReader.empty = some c
      ∧ c.pages.length ≤ smallConsts.MAXPAGES :=
  ⟨smallConsts_wf,
   C7_capacity_invariant smallConsts smallConsts_wf digits.toReader
     [Op.read 0 10, Op.read 17 1, Op.readString 3]⟩

/-! ### The copy of `CacheReader::read` when the position lies past the valid part of the page

`page->len - offsetOfDataInPage` (reader.cc:203) is a `size_t` subtraction:
when `offsetOfDataInPage > page->len` it wraps to a huge value, so `chunk`
becomes `count` and the copy takes bytes the load never wrote. -/

/-- C2: over the 10 bytes "0123456789", with pages of 4096 bytes, the read
`CacheReader::read(11, 1)` on a fresh cache starts past the end of the data
and returns 1 byte (not 0), taken from byte 11 of a page that holds 10 valid
bytes. -/
theorem C2_read_past_end_returns_byte :
    digits.len = 10 ∧
    (CacheReader.read stdConsts digits.toReader CacheReader.empty 11 1).map
        (fun r => (r.1.rc, r.1.bytes.length)) = some (1, 1) := by
  decide

/-- C3: in that read the single loop iteration copies `chunk = 1` byte at
`offsetOfDataInPage = 11` from a page with `len = 10`:
`offsetOfDataInPage + chunk <= page.len` fails. -/
theorem C3_copy_outside_valid_part :
    (CacheReader.read stdConsts digits.toReader CacheReader.empty 11 1).map
        (fun r => r.1.copies)
      = some [{ offsetOfPageInFile := 0, offsetOfDataInPage := 11,
                chunk := 1, len := 10 }]
    ∧ (CacheReader.read stdConsts digits.toReader CacheReader.empty 11 1).map
        (fun r => r.1.copies.map
          (fun cp => decide (cp.offsetOfDataInPage + cp.chunk ≤ cp.len)))
      = some [false] := by
  decide

/-- C4: over "0123456789" the upstream read of the page at 4096 raises, and
`CacheReader::read(4097, 1)` on a fresh cache returns 1 byte (not 0). -/
theorem C4_absorbed_failure_returns_byte :
    digits.toReader.read 4096 stdConsts.PAGESIZE = none ∧
    (CacheReader.read stdConsts digits.toReader CacheReader.empty 4097 1).map
        (fun r => (r.1.rc, r.1.copies))
      = some (1, [{ offsetOfPageInFile := 4096, offsetOfDataInPage := 1,
                    chunk := 1, len := 0 }]) := by
  decide

/-! ### Slices -/

theorem memcpy_getElem? (l : List Byte) (s n i : Nat) :
    (memcpy l s n)[i]? = if i < n then l[s + i]? else none := by
  unfold memcpy
  simp [List.getElem?_take, List.getElem?_drop]

theorem memcpy_append (l : List Byte) (s a b : Nat) :
    memcpy l s a ++ memcpy l (s + a) b = memcpy l s (a + b) := by
  unfold memcpy
  rw [List.take_add, List.drop_drop]

theorem memcpy_zero (l : List Byte) (s : Nat) : memcpy l s 0 = [] := by
  simp [memcpy]

/-- A copy that stays inside the first `L` bytes of a buffer only depends on
those bytes. -/
theorem memcpy_of_take_eq {buf bs : List Byte} {L a n : Nat}
    (h : buf.take L = bs) (hn : a + n ≤ L) : memcpy buf a n = memcpy bs a n := by
  subst h
  apply List.ext_getElem?
  intro i
  rw [memcpy_getElem?, memcpy_getElem?]
  by_cases hi : i < n
  · simp only [hi, if_true, List.getElem?_take]
    rw [if_pos (by omega)]
  · simp [hi]

theorem memcpy_memcpy (l : List Byte) (q L a n : Nat) (hn : a + n ≤ L) :
    memcpy (memcpy l q L) a n = memcpy l (q + a) n := by
  apply List.ext_getElem?
  intro i
  rw [memcpy_getElem?, memcpy_getElem?, memcpy_getElem?]
  by_cases hi : i < n
  · simp only [hi, if_true]
    rw [if_pos (by omega), Nat.add_assoc]
  · simp [hi]

/-! ### Coherent pages -/

theorem Page.load_coherent {k : Consts} {up : Reader} {q : Nat} {res : ReadResult}
    (hr : up.read q k.PAGESIZE = some res) (hlen : res.bytes.length = res.rc)
    (p : Page) :
    (Page.load k up q p).offset = q ∧ (Page.load k up q p).len = res.rc
    ∧ (Page.load k up q p).data.take res.rc = res.bytes := by
  unfold Page.load
  rw [hr]
  refine ⟨rfl, rfl, ?_⟩
  simp only
  exact List.take_left' hlen

/-- With every page coherent, `getPage(q)` at an offset the upstream can read
hands back the page of `q` holding what the upstream gives, and leaves every
page coherent. -/
theorem getPage_coherent {k : Consts} {up : Reader} {c : CacheReader} {q : Nat}
    {res : ReadResult}
    (hc : ∀ p ∈ c.pages, Page.Coherent k up p)
    (hr : up.read q k.PAGESIZE = some res) (hlen : res.bytes.length = res.rc) :
    (CacheReader.getPage k up c q).1.len = res.rc
    ∧ (CacheReader.getPage k up c q).1.data.take res.rc = res.bytes
    ∧ ∀ p ∈ (CacheReader.getPage k up c q).2.pages, Page.Coherent k up p := by
  cases hf : findPage q c.pages with
  | none =>
    rw [getPage_miss hf]
    obtain ⟨h1, h2, h3⟩ := Page.load_coherent hr hlen (missSlot k c.pages).1
    refine ⟨h2, h3, ?_⟩
    intro p hp
    rcases List.mem_cons.1 hp with rfl | hp
    · exact ⟨res, by rw [h1]; exact hr, h2, h3⟩
    · exact hc p (missSlot_subset p hp)
  | some pr =>
    obtain ⟨p0, rest⟩ := pr
    rw [getPage_hit hf]
    obtain ⟨ho, hperm⟩ := findPage_some hf
    have hall : ∀ p ∈ p0 :: rest, Page.Coherent k up p :=
      fun p hp => hc p (hperm.subset hp)
    obtain ⟨res0, hr0, hl0, hd0⟩ := hall p0 (List.mem_cons_self _ _)
    rw [ho, hr] at hr0
    cases hr0
    exact ⟨hl0, hd0, hall⟩

theorem MemReader.read_page (k : Consts) (m : MemReader)
    (hdata : m.data.length = m.len) (hlen : m.len < 2 ^ 63) {q : Nat} (hq : q ≤ m.len) :
    ∃ res, m.toReader.read q k.PAGESIZE = some res
      ∧ res.rc = min k.PAGESIZE (m.len - q)
      ∧ res.bytes = memcpy m.data q (min k.PAGESIZE (m.len - q))
      ∧ res.bytes.length = res.rc := by
  refine ⟨_, MemReader.read_of_le m q k.PAGESIZE hlen hq, rfl, rfl, ?_⟩
  simp only
  rw [List.length_take, List.length_drop]
  omega

/-- The loop of `CacheReader::read` over a `MemReader`, from a state whose
pages are coherent and a position inside the data: it returns the bytes of
the data from `off` on, `min count (len - off)` of them. -/
theorem readLoop_mem {k : Consts} (hk : k.WF) (m : MemReader)
    (hdata : m.data.length = m.len) (hlen : m.len < 2 ^ 63) :
    ∀ (fuel : Nat) (c : CacheReader) (off count : Nat),
      (∀ p ∈ c.pages, Page.Coherent k m.toReader p) → off ≤ m.len → count < fuel →
      ∃ tr c1, CacheReader.readLoop k m.toReader fuel c off count
          = some (off + min count (m.len - off),
                  memcpy m.data off (min count (m.len - off)), tr, c1)
        ∧ ∀ p ∈ c1.pages, Page.Coherent k m.toReader p := by
  intro fuel
  induction fuel with
  | zero => intro c off count _ _ h; omega
  | succ fuel ih =>
    intro c off count hc hoff hfuel
    by_cases h0 : count = 0
    · subst h0
      refine ⟨[], c, ?_, hc⟩
      rw [readLoop_zero]
      simp [memcpy_zero]
    · rw [readLoop_succ h0]
      simp only
      have hP := hk.pagesize_pos
      have hP2 := hk.pagesize_lt
      have ha : off % k.PAGESIZE < k.PAGESIZE := Nat.mod_lt _ hP
      have hqa : off - off % k.PAGESIZE + off % k.PAGESIZE = off :=
        Nat.sub_add_cancel (Nat.mod_le _ _)
      have hq : off - off % k.PAGESIZE ≤ m.len := by omega
      obtain ⟨res, hr, hrc, hbytes, hbl⟩ := MemReader.read_page k m hdata hlen hq
      obtain ⟨h1, h2, h3⟩ := getPage_coherent hc hr hbl
      generalize CacheReader.getPage k m.toReader c (off - off % k.PAGESIZE) = pg at h1 h2 h3 ⊢
      generalize off % k.PAGESIZE = a at *
      generalize off - a = q at *
      have hsub : subWrap pg.1.len a = pg.1.len - a := subWrap_of_le (by omega) (by omega)
      rw [hsub]
      have hpiece : ∀ n, a + n ≤ pg.1.len →
          memcpy pg.1.data a n = memcpy m.data off n := by
        intro n hn
        rw [memcpy_of_take_eq h2 (by omega), hbytes, memcpy_memcpy _ _ _ _ _ (by omega), hqa]
      by_cases hl : pg.1.len ≠ k.PAGESIZE
      · rw [if_pos hl]
        have hch : min (pg.1.len - a) count = min count (m.len - off) := by omega
        rw [hch, hpiece _ (by omega), addWrap_of_lt (by omega)]
        exact ⟨_, pg.2, rfl, h3⟩
      · rw [if_neg hl]
        have hl2 : pg.1.len = k.PAGESIZE := not_not.1 hl
        obtain ⟨tr, c1, hloop, hc1⟩ := ih pg.2 (addWrap off (min (pg.1.len - a) count))
          (count - min (pg.1.len - a) count) h3
          (by rw [addWrap_of_lt (by omega)]; omega) (by omega)
        rw [hloop]
        simp only
        rw [hpiece _ (by omega), addWrap_of_lt (by omega), memcpy_append]
        have e1 : off + min (pg.1.len - a) count
            + min (count - min (pg.1.len - a) count)
                (m.len - (off + min (pg.1.len - a) count))
            = off + min count (m.len - off) := by omega
        have e2 : min (pg.1.len - a) count
            + min (count - min (pg.1.len - a) count)
                (m.len - (off + min (pg.1.len - a) count))
            = min count (m.len - off) := by omega
        rw [e1, e2]
        exact ⟨_, c1, rfl, hc1⟩

theorem read_mem {k : Consts} (hk : k.WF) (m : MemReader)
    (hdata : m.data.length = m.len) (hlen : m.len < 2 ^ 63)
    (c : CacheReader) (off count : Nat)
    (hc : ∀ p ∈ c.pages, Page.Coherent k m.toReader p) (hoff : off ≤ m.len) :
    ∃ r c1, CacheReader.read k m.toReader c off count = some (r, c1)
      ∧ r.rc = min count (m.len - off)
      ∧ r.bytes = memcpy m.data off (min count (m.len - off))
      ∧ ∀ p ∈ c1.pages, Page.Coherent k m.toReader p := by
  obtain ⟨tr, c1, hloop, hc1⟩ :=
    readLoop_mem hk m hdata hlen (count + 1) c off count hc hoff (by omega)
  unfold CacheReader.read
  rw [hloop]
  refine ⟨_, c1, rfl, ?_, rfl, hc1⟩
  simp only
  unfold subWrap
  omega

theorem run_reads_mem {k : Consts} (hk : k.WF) (m : MemReader)
    (hdata : m.data.length = m.len) (hlen : m.len < 2 ^ 63) :
    ∀ (rs : List (Nat × Nat)) (c : CacheReader),
      (∀ r ∈ rs, r.1 ≤ m.len) →
      (∀ p ∈ c.pages, Page.Coherent k m.toReader p) →
      ∃ c1, CacheReader.run k m.toReader (readOps rs) c = some c1
        ∧ ∀ p ∈ c1.pages, Page.Coherent k m.toReader p := by
  intro rs
  induction rs with
  | nil => intro c _ hc; exact ⟨c, rfl, hc⟩
  | cons r rs ih =>
    intro c hrs hc
    obtain ⟨rr, c2, hr, -, -, hc2⟩ :=
      read_mem hk m hdata hlen c r.1 r.2 hc (hrs r (List.mem_cons_self _ _))
    obtain ⟨c1, h1, hc1⟩ := ih c2 (fun x hx => hrs x (List.mem_cons_of_mem _ hx)) hc2
    refine ⟨c1, ?_, hc1⟩
    simp only [readOps, List.map_cons, CacheReader.run, CacheReader.step, hr, Option.map_some']
    exact h1

/-- C1: over a `MemReader` of `len` bytes, after any sequence of cache reads
at offsets `<= len` from the fresh cache, `CacheReader::read(o, cnt)` with
`o <= len` returns what `MemReader::read(o, cnt)` returns: the count
`min(cnt, len - o)` and the bytes `data[o .. o + min(cnt, len - o))`. -/
theorem C1_read_through (k : Consts) (hk : k.WF) (m : MemReader)
    (hdata : m.data.length = m.len) (hlen : m.len < 2 ^ 63)
    (rs : List (Nat × Nat)) (hrs : ∀ r ∈ rs, r.1 ≤ m.len)
    (o cnt : Nat) (ho : o ≤ m.len) :
    ∃ c r c1,
      CacheReader.run k m.toReader (readOps rs) CacheReader.empty = some c
      ∧ CacheReader.read k m.toReader c o cnt = some (r, c1)
      ∧ m.read o cnt = some { rc := r.rc, bytes := r.bytes }
      ∧ r.rc = min cnt (m.len - o)
      ∧ r.bytes = (m.data.drop o).take (min cnt (m.len - o)) := by
  obtain ⟨c, hrun, hc⟩ := run_reads_mem hk m hdata hlen rs CacheReader.empty hrs
    (by simp [CacheReader.empty])
  obtain ⟨r, c1, hr, hrc, hb, -⟩ := read_mem hk m hdata hlen c o cnt hc ho
  refine ⟨c, r, c1, hrun, hr, ?_, hrc, hb⟩
  rw [MemReader.read_of_le m o cnt hlen ho, hrc, hb]
  rfl

/-- C1 with pages of 4 bytes, 2 pages, over "0123456789": `read(3, 6)` after
three earlier reads (which evict and reload pages). -/
theorem C1_read_through_witness :
    smallConsts.WF ∧ digits.data.length = digits.len ∧ digits.len < 2 ^ 63
    ∧ (∀ r ∈ [(0, 10), (9, 3), (10, 1)], r.1 ≤ digits.len) ∧ 3 ≤ digits.len
    ∧ ∃ c r c1,
      CacheReader.run smallConsts digits.toReader (readOps [(0, 10), (9, 3), (10, 1)])
        CacheReader.empty = some c
      ∧ CacheReader.read smallConsts digits.toReader c 3 6 = some (r, c1)
      ∧ digits.read 3 6 = some { rc := r.rc, bytes := r.bytes }
      ∧ r.rc = min 6 (digits.len - 3)
      ∧ r.bytes = (digits.data.drop 3).take (min 6 (digits.len - 3)) :=
  ⟨smallConsts_wf, by decide, by decide, by decide, by decide,
   C1_read_through smallConsts smallConsts_wf digits (by decide) (by decide)
     [(0, 10), (9, 3), (10, 1)] (by decide) 3 6 (by decide)⟩

/-! ### Sequences of `getPage` calls -/

theorem getPages_nil (k : Consts) (up : Reader) (c : CacheReader) :
    getPages k up c [] = c := rfl

theorem getPages_cons (k : Consts) (up : Reader) (c : CacheReader) (q : Nat)
    (qs : List Nat) :
    getPages k up c (q :: qs) = getPages k up (CacheReader.getPage k up c q).2 qs := rfl

/-- The state the loop of `read` ends in is the state after the `getPage`
calls of its iterations. -/
theorem readLoop_state {k : Consts} {up : Reader} :
    ∀ (fuel : Nat) (c : CacheReader) (off count : Nat)
      (r : Nat × List Byte × List Copy × CacheReader),
      CacheReader.readLoop k up fuel c off count = some r →
      r.2.2.2 = getPages k up c (r.2.2.1.map (·.offsetOfPageInFile)) := by
  intro fuel
  induction fuel with
  | zero => intro c off count r h; simp [CacheReader.readLoop] at h
  | succ fuel ih =>
    intro c off count r h
    by_cases h0 : count = 0
    · subst h0
      rw [readLoop_zero] at h
      cases h; rfl
    · rw [readLoop_succ h0] at h
      simp only at h
      split at h
      · cases h; rfl
      · split at h
        · rename_i off1 out tr c1 heq
          cases h
          have := ih _ _ _ (off1, out, tr, c1) heq
          simp only [List.map_cons, getPages_cons]
          exact this
        · cases h

theorem read_state {k : Consts} {up : Reader} {c : CacheReader} {off count : Nat}
    {r : CacheRead} {c1 : CacheReader}
    (h : CacheReader.read k up c off count = some (r, c1)) :
    c1 = getPages k up c (r.copies.map (·.offsetOfPageInFile)) := by
  unfold CacheReader.read at h
  split at h
  · rename_i off1 out tr c2 heq
    cases h
    exact readLoop_state _ _ _ _ _ heq
  · cases h

/-- A `getPage` call for an offset in the list is a hit: no upstream read,
the same pages in another order. -/
theorem getPage_of_mem {k : Consts} (up : Reader) {c : CacheReader} {q : Nat}
    (hq : q ∈ c.offsets) :
    (CacheReader.getPage k up c q).2.upstreamReads = c.upstreamReads
    ∧ (CacheReader.getPage k up c q).2.pages.Perm c.pages := by
  unfold CacheReader.offsets at hq
  obtain ⟨p, hp, hpo⟩ := List.mem_map.1 hq
  obtain ⟨⟨p0, rest⟩, hf⟩ := findPage_isSome_of_mem hp hpo
  rw [getPage_hit hf]
  exact ⟨rfl, (findPage_some hf).2⟩

theorem offsets_perm {c c1 : CacheReader} (h : c1.pages.Perm c.pages) :
    c1.offsets.Perm c.offsets := by
  unfold CacheReader.offsets; exact h.map _

/-- Calls for offsets that are all in the list issue no upstream read and
keep the same pages. -/
theorem getPages_of_mem {k : Consts} (up : Reader) :
    ∀ (qs : List Nat) (c : CacheReader), (∀ q ∈ qs, q ∈ c.offsets) →
      (getPages k up c qs).upstreamReads = c.upstreamReads
      ∧ (getPages k up c qs).pages.Perm c.pages := by
  intro qs
  induction qs with
  | nil => intro c _; exact ⟨rfl, List.Perm.refl _⟩
  | cons q qs ih =>
    intro c h
    obtain ⟨h1, h2⟩ := getPage_of_mem up (h q (List.mem_cons_self _ _))
    obtain ⟨h3, h4⟩ := ih (CacheReader.getPage k up c q).2
      (fun x hx => (offsets_perm h2).symm.subset (h x (List.mem_cons_of_mem _ hx)))
    rw [getPages_cons]
    exact ⟨h3.trans h1, h4.trans h2⟩

theorem Page.load_offset {k : Consts} {up : Reader} {q : Nat} {res : ReadResult}
    (hr : up.read q k.PAGESIZE = some res) (p : Page) :
    (Page.load k up q p).offset = q := by
  unfold Page.load; rw [hr]

theorem missSlot_offsets {k : Consts} {pages : List Page}
    (hM : 0 < k.MAXPAGES) (h : pages.length ≤ k.MAXPAGES) (q : Nat) :
    q :: (missSlot k pages).2.map (·.offset)
      = (q :: pages.map (·.offset)).take k.MAXPAGES := by
  obtain ⟨n, hn⟩ : ∃ n, k.MAXPAGES = n + 1 := ⟨k.MAXPAGES - 1, by omega⟩
  rw [hn, List.take_succ_cons]
  congr 1
  unfold missSlot
  by_cases hl : pages.length = k.MAXPAGES
  · rw [if_pos hl]
    cases hg : pages.getLast? with
    | none =>
      rw [List.getLast?_eq_none_iff] at hg
      subst hg; simp
    | some p =>
      simp only
      rw [List.dropLast_eq_take, List.map_take]
      congr 1
      omega
  · rw [if_neg hl]
    simp only
    rw [List.take_of_length_le]
    simp; omega

/-- A miss whose load succeeds puts the new offset in front and keeps the
`MAXPAGES - 1` most recent others, issuing one upstream read. -/
theorem getPage_miss_offsets {k : Consts} (hk : k.WF) {up : Reader} {c : CacheReader}
    {q : Nat} {res : ReadResult}
    (hq : q ∉ c.offsets) (hr : up.read q k.PAGESIZE = some res)
    (hlen : c.pages.length ≤ k.MAXPAGES) :
    (CacheReader.getPage k up c q).2.offsets = (q :: c.offsets).take k.MAXPAGES
    ∧ (CacheReader.getPage k up c q).2.upstreamReads
        = c.upstreamReads ++ [(q, k.PAGESIZE)] := by
  have hf : findPage q c.pages = none := by
    cases hf : findPage q c.pages with
    | none => rfl
    | some pr =>
      obtain ⟨p, rest⟩ := pr
      obtain ⟨h1, h2⟩ := findPage_some hf
      exfalso; apply hq
      unfold CacheReader.offsets
      rw [← h1]
      exact List.mem_map_of_mem _ (h2.subset (List.mem_cons_self _ _))
  rw [getPage_miss hf]
  refine ⟨?_, rfl⟩
  unfold CacheReader.offsets
  simp only [List.map_cons]
  rw [Page.load_offset hr]
  exact missSlot_offsets hk.maxpages_pos hlen q

theorem take_append_take {α : Type} (M : Nat) (A B : List α) :
    (A ++ B.take M).take M = (A ++ B).take M := by
  rw [List.take_append_eq_append_take, List.take_append_eq_append_take, List.take_take]
  congr 2
  omega

/-- Calls for pairwise distinct offsets none of which is in the list, all
readable upstream: every call is a miss, and the list ends as the `MAXPAGES`
most recent offsets, most recent first. -/
theorem getPages_distinct {k : Consts} (hk : k.WF) {up : Reader} :
    ∀ (qs : List Nat) (c : CacheReader),
      (∀ q ∈ qs, ∃ res, up.read q k.PAGESIZE = some res) →
      qs.Nodup → (∀ q ∈ qs, q ∉ c.offsets) → c.pages.length ≤ k.MAXPAGES →
      (getPages k up c qs).offsets = (qs.reverse ++ c.offsets).take k.MAXPAGES
      ∧ (getPages k up c qs).upstreamReads
          = c.upstreamReads ++ qs.map (fun q => (q, k.PAGESIZE)) := by
  intro qs
  induction qs with
  | nil =>
    intro c _ _ _ hlen
    refine ⟨?_, by simp [getPages_nil]⟩
    simp only [List.reverse_nil, List.nil_append, getPages_nil]
    rw [List.take_of_length_le]
    simpa [CacheReader.offsets] using hlen
  | cons q qs ih =>
    intro c hup hnd hnew hlen
    obtain ⟨res, hres⟩ := hup q (List.mem_cons_self _ _)
    obtain ⟨ho, hu⟩ := getPage_miss_offsets hk (hnew q (List.mem_cons_self _ _)) hres hlen
    rw [List.nodup_cons] at hnd
    have hlen2 : (CacheReader.getPage k up c q).2.pages.length ≤ k.MAXPAGES :=
      getPage_length_le up c _ hk.maxpages_pos hlen
    have hnew2 : ∀ x ∈ qs, x ∉ (CacheReader.getPage k up c q).2.offsets := by
      intro x hx hmem
      rw [ho] at hmem
      rcases List.mem_cons.1 (List.mem_of_mem_take hmem) with h | h
      · exact hnd.1 (h ▸ hx)
      · exact hnew x (List.mem_cons_of_mem _ hx) h
    obtain ⟨hoff, hreads⟩ :=
      ih _ (fun x hx => hup x (List.mem_cons_of_mem _ hx)) hnd.2 hnew2 hlen2
    rw [getPages_cons]
    refine ⟨?_, ?_⟩
    · rw [hoff, ho, take_append_take]
      simp
    · rw [hreads, hu]
      simp

/-! ### Reads that lie within one page -/

/-- A read of at least one byte that does not cross a page boundary makes
exactly one `getPage` call. -/
theorem read_single {k : Consts} (hk : k.WF) (up : Reader) (c : CacheReader)
    {off cnt : Nat} (h0 : cnt ≠ 0) (h1 : off % k.PAGESIZE + cnt ≤ k.PAGESIZE) :
    ∃ r, CacheReader.read k up c off cnt
      = some (r, (CacheReader.getPage k up c (pageOf k off)).2) := by
  unfold CacheReader.read pageOf
  rw [readLoop_succ h0]
  simp only
  by_cases hl : (CacheReader.getPage k up c (off - off % k.PAGESIZE)).1.len ≠ k.PAGESIZE
  · rw [if_pos hl]; exact ⟨_, rfl⟩
  · rw [if_neg hl, not_not.1 hl]
    have hsub : subWrap k.PAGESIZE (off % k.PAGESIZE) = k.PAGESIZE - off % k.PAGESIZE :=
      subWrap_of_le (by omega) hk.pagesize_lt
    have hch : min (subWrap k.PAGESIZE (off % k.PAGESIZE)) cnt = cnt := by
      rw [hsub]; omega
    rw [hch, Nat.sub_self]
    obtain ⟨n, rfl⟩ : ∃ n, cnt = n + 1 := ⟨cnt - 1, by omega⟩
    rw [readLoop_zero]
    exact ⟨_, rfl⟩

/-- A run of reads that each lie within one page is the sequence of the
`getPage` calls for their pages. -/
theorem run_single_pages {k : Consts} (hk : k.WF) (up : Reader) :
    ∀ (rs : List (Nat × Nat)) (c : CacheReader),
      (∀ r ∈ rs, r.2 ≠ 0 ∧ r.1 % k.PAGESIZE + r.2 ≤ k.PAGESIZE) →
      CacheReader.run k up (readOps rs) c
        = some (getPages k up c (rs.map (fun r => pageOf k r.1))) := by
  intro rs
  induction rs with
  | nil => intro c _; rfl
  | cons r rs ih =>
    intro c hone
    obtain ⟨h0, h1⟩ := hone r (List.mem_cons_self _ _)
    obtain ⟨rr, hr⟩ := read_single hk up c h0 h1
    simp only [readOps, List.map_cons, CacheReader.run, CacheReader.step, hr,
      Option.map_some', getPages_cons]
    exact ih _ (fun x hx => hone x (List.mem_cons_of_mem _ hx))

/-- C8: from the empty cache, over an upstream whose reads succeed, after
`MAXPAGES + 1` reads `r1, rest` that each lie within one page, at pairwise
distinct pages, the page of `r1` is no longer in the list while the pages of
the others are (most recent first), and a following read within the page of
`r1` issues exactly one upstream read, of that page. -/
theorem C8_lru_eviction (k : Consts) (hk : k.WF) (up : Reader)
    (hup : ∀ o n, ∃ res, up.read o n = some res)
    (r1 : Nat × Nat) (rest : List (Nat × Nat)) (hN : rest.length = k.MAXPAGES)
    (hone : ∀ r ∈ r1 :: rest, r.2 ≠ 0 ∧ r.1 % k.PAGESIZE + r.2 ≤ k.PAGESIZE)
    (hdist : ((r1 :: rest).map (fun r => pageOf k r.1)).Nodup)
    (off cnt : Nat) (hoff : pageOf k off = pageOf k r1.1)
    (hcnt : cnt ≠ 0 ∧ off % k.PAGESIZE + cnt ≤ k.PAGESIZE) :
    ∃ c r c1,
      CacheReader.run k up (readOps (r1 :: rest)) CacheReader.empty = some c
      ∧ c.offsets = (rest.map (fun r => pageOf k r.1)).reverse
      ∧ pageOf k r1.1 ∉ c.offsets
      ∧ (∀ x ∈ rest, pageOf k x.1 ∈ c.offsets)
      ∧ CacheReader.read k up c off cnt = some (r, c1)
      ∧ c1.upstreamReads = c.upstreamReads ++ [(pageOf k r1.1, k.PAGESIZE)] := by
  have hrun := run_single_pages hk up (r1 :: rest) CacheReader.empty hone
  obtain ⟨ho, -⟩ := getPages_distinct hk ((r1 :: rest).map (fun r => pageOf k r.1))
    CacheReader.empty (fun q _ => hup q k.PAGESIZE) hdist
    (by simp [CacheReader.empty, CacheReader.offsets]) (by simp [CacheReader.empty])
  have hoffs : (getPages k up CacheReader.empty
      ((r1 :: rest).map (fun r => pageOf k r.1))).offsets
      = (rest.map (fun r => pageOf k r.1)).reverse := by
    rw [ho]
    simp only [List.map_cons, List.reverse_cons, CacheReader.offsets, CacheReader.empty,
      List.map_nil, List.append_nil]
    apply List.take_left'
    simp [hN]
  rw [List.map_cons, List.nodup_cons] at hdist
  have hnot : pageOf k r1.1 ∉ (getPages k up CacheReader.empty
      ((r1 :: rest).map (fun r => pageOf k r.1))).offsets := by
    rw [hoffs]; simpa using hdist.1
  obtain ⟨r, hr⟩ := read_single hk up (getPages k up CacheReader.empty
      ((r1 :: rest).map (fun r => pageOf k r.1))) hcnt.1 hcnt.2
  obtain ⟨res, hres⟩ := hup (pageOf k r1.1) k.PAGESIZE
  have hlen : (getPages k up CacheReader.empty
      ((r1 :: rest).map (fun r => pageOf k r.1))).pages.length ≤ k.MAXPAGES := by
    have : (getPages k up CacheReader.empty
      ((r1 :: rest).map (fun r => pageOf k r.1))).offsets.length = k.MAXPAGES := by
      rw [hoffs]; simp [hN]
    unfold CacheReader.offsets at this
    rw [List.length_map] at this
    omega
  obtain ⟨-, hu⟩ := getPage_miss_offsets hk hnot hres hlen
  refine ⟨_, r, _, hrun, hoffs, hnot, ?_, hr, ?_⟩
  · intro x hx
    rw [hoffs]
    simp only [List.mem_reverse]
    exact List.mem_map_of_mem (fun r => pageOf k r.1) hx
  · rw [hoff]; exact hu


/-- C8 with 2 pages of 4 bytes: reads in pages 0, 4, 8, then a read in page 0. -/
theorem C8_lru_eviction_witness :
    smallConsts.WF
    ∧ (∀ o n, ∃ res, (plainFile digits.data).read o n = some res)
    ∧ [(5, 2), (8, 4)].length = smallConsts.MAXPAGES
    ∧ (∀ r ∈ [(0, 1), (5, 2), (8, 4)],
        r.2 ≠ 0 ∧ r.1 % smallConsts.PAGESIZE + r.2 ≤ smallConsts.PAGESIZE)
    ∧ ([(0, 1), (5, 2), (8, 4)].map (fun r => pageOf smallConsts r.1)).Nodup
    ∧ pageOf smallConsts 1 = pageOf smallConsts 0
    ∧ (3 ≠ 0 ∧ 1 % smallConsts.PAGESIZE + 3 ≤ smallConsts.PAGESIZE)
    ∧ ∃ c r c1,
      CacheReader.run smallConsts (plainFile digits.data)
        (readOps [(0, 1), (5, 2), (8, 4)]) CacheReader.empty = some c
      ∧ c.offsets = ([(5, 2), (8, 4)].map (fun r => pageOf smallConsts r.1)).reverse
      ∧ pageOf smallConsts 0 ∉ c.offsets
      ∧ (∀ x ∈ [(5, 2), (8, 4)], pageOf smallConsts x.1 ∈ c.offsets)
      ∧ CacheReader.read smallConsts (plainFile digits.data) c 1 3 = some (r, c1)
      ∧ c1.upstreamReads
          = c.upstreamReads ++ [(pageOf smallConsts 0, smallConsts.PAGESIZE)] :=
  ⟨smallConsts_wf, fun _ _ => ⟨_, rfl⟩, by decide, by decide, by decide, by decide,
   by decide,
   C8_lru_eviction smallConsts smallConsts_wf (plainFile digits.data)
     (fun _ _ => ⟨_, rfl⟩) (0, 1) [(5, 2), (8, 4)] (by decide) (by decide)
     (by decide) 1 3 (by decide) (by decide)⟩

/-! ### Repeated reads -/

theorem getPage_coherent_inv {k : Consts} {up : Reader} (hup : up.Succeeds)
    (c : CacheReader) (q : Nat) (hc : ∀ p ∈ c.pages, Page.Coherent k up p) :
    ∀ p ∈ (CacheReader.getPage k up c q).2.pages, Page.Coherent k up p := by
  obtain ⟨res, hr, hl, -⟩ := hup q k.PAGESIZE
  exact (getPage_coherent hc hr hl).2.2

/-- From two states with coherent pages, the loop started at a page boundary
makes the same copies and stores the same bytes. -/
theorem readLoop_deterministic {k : Consts} (hk : k.WF) {up : Reader}
    (hup : up.Succeeds) :
    ∀ (fuel : Nat) (c c' : CacheReader) (off count : Nat)
      (r r' : Nat × List Byte × List Copy × CacheReader),
      (∀ p ∈ c.pages, Page.Coherent k up p) →
      (∀ p ∈ c'.pages, Page.Coherent k up p) →
      (count = 0 ∨ off % k.PAGESIZE = 0) → off + count < 2 ^ 64 →
      CacheReader.readLoop k up fuel c off count = some r →
      CacheReader.readLoop k up fuel c' off count = some r' →
      r.1 = r'.1 ∧ r.2.1 = r'.2.1 ∧ r.2.2.1 = r'.2.2.1 := by
  intro fuel
  induction fuel with
  | zero => intro c c' off count r r' _ _ _ _ h; simp [CacheReader.readLoop] at h
  | succ fuel ih =>
    intro c c' off count r r' hc hc' hal hb h h'
    by_cases h0 : count = 0
    · subst h0
      rw [readLoop_zero] at h h'
      cases h; cases h'
      exact ⟨rfl, rfl, rfl⟩
    · have ha : off % k.PAGESIZE = 0 := by
        rcases hal with h | h
        · exact absurd h h0
        · exact h
      rw [readLoop_succ h0] at h h'
      simp only at h h'
      obtain ⟨res, hr, hl, hle⟩ := hup (off - off % k.PAGESIZE) k.PAGESIZE
      obtain ⟨h1, h2, h3⟩ := getPage_coherent hc hr hl
      obtain ⟨h1', h2', h3'⟩ := getPage_coherent hc' hr hl
      generalize CacheReader.getPage k up c (off - off % k.PAGESIZE) = pg at h h1 h2 h3
      generalize CacheReader.getPage k up c' (off - off % k.PAGESIZE) = pg' at h' h1' h2' h3'
      rw [ha] at h h'
      have hP2 := hk.pagesize_lt
      have hs : subWrap pg.1.len 0 = res.rc := by
        rw [subWrap_of_le (Nat.zero_le _) (by omega), h1]; rfl
      have hs' : subWrap pg'.1.len 0 = res.rc := by
        rw [subWrap_of_le (Nat.zero_le _) (by omega), h1']; rfl
      rw [hs, h1] at h
      rw [hs', h1'] at h'
      rw [memcpy_of_take_eq h2 (by omega)] at h
      rw [memcpy_of_take_eq h2' (by omega)] at h'
      by_cases hlen : res.rc ≠ k.PAGESIZE
      · rw [if_pos hlen] at h h'
        cases h; cases h'
        exact ⟨rfl, rfl, rfl⟩
      · rw [if_neg hlen] at h h'
        have hlen2 : res.rc = k.PAGESIZE := not_not.1 hlen
        split at h
        · rename_i off1 out tr c1 heq
          split at h'
          · rename_i off1' out' tr' c1' heq'
            cases h; cases h'
            have hal2 : count - min res.rc count = 0
                ∨ addWrap off (min res.rc count) % k.PAGESIZE = 0 := by
              by_cases hcp : count ≤ res.rc
              · left; omega
              · right
                have : min res.rc count = k.PAGESIZE := by omega
                rw [this, addWrap_of_lt (by omega), Nat.add_mod_right]
                exact ha
            have hb2 : addWrap off (min res.rc count) + (count - min res.rc count)
                < 2 ^ 64 := by
              rw [addWrap_of_lt (by omega)]; omega
            obtain ⟨e1, e2, e3⟩ := ih _ _ _ _ (off1, out, tr, c1) (off1', out', tr', c1')
              h3 h3' hal2 hb2 heq heq'
            simp only at e1 e2 e3
            subst e1 e2 e3
            exact ⟨rfl, rfl, rfl⟩
          · cases h'
        · cases h

/-- C9 (amended): over an upstream whose reads succeed, when a read at a
page-aligned offset `p` is repeated later with the same count, and every page
the first read visited is in the page list at that time, the second read
returns the same count and the same bytes as the first and issues no upstream
read. -/
theorem C9_repeated_read_hits (k : Consts) (hk : k.WF) (up : Reader)
    (hup : up.Succeeds) (pre mid : List (Nat × Nat)) (p cnt : Nat)
    (hp : p % k.PAGESIZE = 0) (hbound : p + cnt < 2 ^ 64)
    (c0 c1 c2 : CacheReader) (r1 : CacheRead)
    (h0 : CacheReader.run k up (readOps pre) CacheReader.empty = some c0)
    (h1 : CacheReader.read k up c0 p cnt = some (r1, c1))
    (h2 : CacheReader.run k up (readOps mid) c1 = some c2)
    (hres : ∀ cp ∈ r1.copies, cp.offsetOfPageInFile ∈ c2.offsets) :
    ∃ r2 c3, CacheReader.read k up c2 p cnt = some (r2, c3)
      ∧ r2.rc = r1.rc ∧ r2.bytes = r1.bytes
      ∧ c3.upstreamReads = c2.upstreamReads := by
  have hI : ∀ (c : CacheReader) (q : Nat), (∀ p ∈ c.pages, Page.Coherent k up p) →
      ∀ p ∈ (CacheReader.getPage k up c q).2.pages, Page.Coherent k up p :=
    fun c q hc => getPage_coherent_inv hup c q hc
  have hc0 : ∀ p ∈ c0.pages, Page.Coherent k up p :=
    run_pages_inv (fun l => ∀ p ∈ l, Page.Coherent k up p) hI _ _ _ h0
      (by simp [CacheReader.empty])
  have hc1 : ∀ p ∈ c1.pages, Page.Coherent k up p :=
    read_pages_inv (fun l => ∀ p ∈ l, Page.Coherent k up p) hI h1 hc0
  have hc2 : ∀ p ∈ c2.pages, Page.Coherent k up p :=
    run_pages_inv (fun l => ∀ p ∈ l, Page.Coherent k up p) hI _ _ _ h2 hc1
  obtain ⟨⟨r2, c3⟩, hr2⟩ := read_isSome hk up c2 p cnt
  have hst := read_state hr2
  refine ⟨r2, c3, hr2, ?_⟩
  unfold CacheReader.read at h1 hr2
  split at h1
  · rename_i off1 out tr c1' heq
    split at hr2
    · rename_i off2 out2 tr2 c3' heq2
      cases h1; cases hr2
      obtain ⟨e1, e2, e3⟩ := readLoop_deterministic hk hup _ _ _ _ _
        (off1, out, tr, c1) (off2, out2, tr2, c3) hc0 hc2 (Or.inr hp) hbound heq heq2
      simp only at e1 e2 e3 hres hst
      subst e1 e2 e3
      refine ⟨rfl, rfl, ?_⟩
      rw [hst]
      exact (getPages_of_mem up _ c2 (by
        intro q hq
        obtain ⟨cp, hcp, rfl⟩ := List.mem_map.1 hq
        exact hres cp hcp)).1
    · cases hr2
  · cases h1

theorem plainFile_succeeds (content : List Byte) : (plainFile content).Succeeds := by
  intro o n
  refine ⟨_, rfl, rfl, ?_⟩
  simp only [memcpy, List.length_take]
  omega

/-- C9 as stated fails.  With 2 pages of 4 bytes, `read(0, 8)` visits pages 0
and 4; `read(0, 1)` and `read(8, 1)` then evict page 4 while page 0 stays in
the list throughout (it is loaded once); the repeated `read(0, 8)` issues the
upstream read `(4, 4)` again.  With the original constants (4096, 16) the
same happens: after `read(0, 8192)`, a read in page 0 and one read in each of
the pages 8192 .. 65536 evict page 4096 and keep page 0, and the repeated
`read(0, 8192)` issues the upstream read `(4096, 4096)` again. -/
theorem C9_other_page_evicted :
    (CacheReader.run smallConsts (plainFile digits.data)
        (readOps [(0, 8)]) CacheReader.empty).map
      (fun c => (c.offsets, c.upstreamReads)) = some ([4, 0], [(0, 4), (4, 4)])
    ∧ (CacheReader.run smallConsts (plainFile digits.data)
        (readOps [(0, 8), (0, 1)]) CacheReader.empty).map
      (fun c => (c.offsets, c.upstreamReads)) = some ([0, 4], [(0, 4), (4, 4)])
    ∧ (CacheReader.run smallConsts (plainFile digits.data)
        (readOps [(0, 8), (0, 1), (8, 1)]) CacheReader.empty).map
      (fun c => (c.offsets, c.upstreamReads))
        = some ([8, 0], [(0, 4), (4, 4), (8, 4)])
    ∧ (CacheReader.run smallConsts (plainFile digits.data)
        (readOps [(0, 8), (0, 1), (8, 1), (0, 8)]) CacheReader.empty).map
      (fun c => (c.offsets, c.upstreamReads))
        = some ([4, 0], [(0, 4), (4, 4), (8, 4), (4, 4)])
    ∧ (CacheReader.run stdConsts devZero
        (readOps [(0, 8192), (0, 1), (8192, 1), (12288, 1), (16384, 1), (20480, 1),
          (24576, 1), (28672, 1), (32768, 1), (36864, 1), (40960, 1), (45056, 1),
          (49152, 1), (53248, 1), (57344, 1), (61440, 1), (65536, 1)])
        CacheReader.empty).map (fun c => (c.offsets, c.upstreamReads))
        = some ([65536, 61440, 57344, 53248, 49152, 45056, 40960, 36864, 32768,
                  28672, 24576, 20480, 16384, 12288, 8192, 0],
                [(0, 4096), (4096, 4096), (8192, 4096), (12288, 4096),
                  (16384, 4096), (20480, 4096), (24576, 4096), (28672, 4096),
                  (32768, 4096), (36864, 4096), (40960, 4096), (45056, 4096),
                  (49152, 4096), (53248, 4096), (57344, 4096), (61440, 4096),
                  (65536, 4096)])
    ∧ (CacheReader.run stdConsts devZero
        (readOps [(0, 8192), (0, 1), (8192, 1), (12288, 1), (16384, 1), (20480, 1),
          (24576, 1), (28672, 1), (32768, 1), (36864, 1), (40960, 1), (45056, 1),
          (49152, 1), (53248, 1), (57344, 1), (61440, 1), (65536, 1), (0, 8192)])
        CacheReader.empty).map (fun c => (c.offsets, c.upstreamReads))
        = some ([4096, 0, 65536, 61440, 57344, 53248, 49152, 45056, 40960, 36864,
                  32768, 28672, 24576, 20480, 16384, 12288],
                [(0, 4096), (4096, 4096), (8192, 4096), (12288, 4096),
                  (16384, 4096), (20480, 4096), (24576, 4096), (28672, 4096),
                  (32768, 4096), (36864, 4096), (40960, 4096), (45056, 4096),
                  (49152, 4096), (53248, 4096), (57344, 4096), (61440, 4096),
                  (65536, 4096), (4096, 4096)]) := by
  refine ⟨by decide, by decide, by decide, by decide, ?_, ?_⟩ <;> decide

/-- C9 (amended) with 2 pages of 4 bytes: `read(0, 8)` repeated after
`read(0, 1)`, pages 0 and 4 both still in the list. -/
theorem C9_repeated_read_hits_witness :
    smallConsts.WF ∧ (plainFile digits.data).Succeeds
    ∧ 0 % smallConsts.PAGESIZE = 0 ∧ 0 + 8 < 2 ^ 64
    ∧ ∃ c0 c1 c2 r1,
      CacheReader.run smallConsts (plainFile digits.data) (readOps [(8, 1)])
        CacheReader.empty = some c0
      ∧ CacheReader.read smallConsts (plainFile digits.data) c0 0 8 = some (r1, c1)
      ∧ CacheReader.run smallConsts (plainFile digits.data) (readOps [(0, 1)]) c1
          = some c2
      ∧ (∀ cp ∈ r1.copies, cp.offsetOfPageInFile ∈ c2.offsets)
      ∧ ∃ r2 c3,
        CacheReader.read smallConsts (plainFile digits.data) c2 0 8 = some (r2, c3)
        ∧ r2.rc = r1.rc ∧ r2.bytes = r1.bytes
        ∧ c3.upstreamReads = c2.upstreamReads :=
  ⟨smallConsts_wf, plainFile_succeeds _, by decide, by decide,
   _, _, _, _, rfl, rfl, rfl, by decide,
   C9_repeated_read_hits smallConsts smallConsts_wf (plainFile digits.data)
     (plainFile_succeeds _) [(8, 1)] [(0, 1)] 0 8 (by decide) (by decide)
     _ _ _ _ rfl rfl rfl (by decide)⟩

/-! ### Pages visited by a read -/

theorem pagesCovering_zero {k : Consts} (hk : k.WF) : pagesCovering k 0 = 0 := by
  unfold pagesCovering
  apply Nat.div_eq_of_lt
  have := hk.pagesize_pos
  omega

theorem pagesCovering_le {k : Consts} (hk : k.WF) {n : Nat} (h0 : 0 < n)
    (h : n ≤ k.PAGESIZE) : pagesCovering k n = 1 := by
  unfold pagesCovering
  have hP := hk.pagesize_pos
  have e : n + k.PAGESIZE - 1 = (n - 1) + k.PAGESIZE := by omega
  rw [e, Nat.add_div_right _ hP, Nat.div_eq_of_lt (by omega)]

theorem pagesCovering_gt {k : Consts} (hk : k.WF) {n : Nat} (h : k.PAGESIZE < n) :
    pagesCovering k n = pagesCovering k (n - k.PAGESIZE) + 1 := by
  unfold pagesCovering
  have hP := hk.pagesize_pos
  have e : n + k.PAGESIZE - 1 = (n - k.PAGESIZE + k.PAGESIZE - 1) + k.PAGESIZE := by omega
  rw [e, Nat.add_div_right _ hP]

theorem lt_pagesCovering {k : Consts} (hk : k.WF) {i n : Nat} (h : i * k.PAGESIZE < n) :
    i < pagesCovering k n := by
  unfold pagesCovering
  have hP := hk.pagesize_pos
  rw [Nat.lt_iff_add_one_le, Nat.le_div_iff_mul_le hP, Nat.add_mul]
  omega

theorem sub_mod_self_mod (off P : Nat) : (off - off % P) % P = 0 :=
  Nat.sub_mod_eq_zero_of_mod_eq (Nat.mod_mod _ _).symm

/-- The pages the loop visits start at page boundaries below `off + count`. -/
theorem readLoop_visited_bound {k : Consts} {up : Reader} :
    ∀ (fuel : Nat) (c : CacheReader) (off count : Nat)
      (r : Nat × List Byte × List Copy × CacheReader),
      off + count < 2 ^ 64 →
      CacheReader.readLoop k up fuel c off count = some r →
      ∀ cp ∈ r.2.2.1, cp.offsetOfPageInFile % k.PAGESIZE = 0
        ∧ cp.offsetOfPageInFile < off + count := by
  intro fuel
  induction fuel with
  | zero => intro c off count r _ h; simp [CacheReader.readLoop] at h
  | succ fuel ih =>
    intro c off count r hb h
    by_cases h0 : count = 0
    · subst h0
      rw [readLoop_zero] at h
      cases h; simp
    · rw [readLoop_succ h0] at h
      simp only at h
      have hq : (off - off % k.PAGESIZE) % k.PAGESIZE = 0
          ∧ off - off % k.PAGESIZE < off + count :=
        ⟨sub_mod_self_mod _ _, by omega⟩
      split at h
      · cases h
        intro cp hcp
        rw [List.mem_singleton] at hcp
        subst hcp
        exact hq
      · split at h
        · rename_i off1 out tr c1 heq
          cases h
          intro cp hcp
          rcases List.mem_cons.1 hcp with rfl | hcp
          · exact hq
          · generalize hch : min (subWrap (CacheReader.getPage k up c
                (off - off % k.PAGESIZE)).1.len (off % k.PAGESIZE)) count = chunk at heq
            have hle : chunk ≤ count := by rw [← hch]; exact Nat.min_le_right _ _
            have e : addWrap off chunk = off + chunk := addWrap_of_lt (by omega)
            rw [e] at heq
            have := ih _ _ _ (off1, out, tr, c1) (by omega) heq cp hcp
            exact ⟨this.1, by omega⟩
        · cases h

/-- Over a `MemReader`, a read from a page boundary that ends inside the data
visits the pages `off, off + PAGESIZE, ...` that cover `count` bytes. -/
theorem readLoop_mem_visited {k : Consts} (hk : k.WF) (m : MemReader)
    (hdata : m.data.length = m.len) (hlen : m.len < 2 ^ 63) :
    ∀ (fuel : Nat) (c : CacheReader) (off count : Nat)
      (r : Nat × List Byte × List Copy × CacheReader),
      (∀ p ∈ c.pages, Page.Coherent k m.toReader p) →
      (count = 0 ∨ off % k.PAGESIZE = 0) → off + count ≤ m.len →
      CacheReader.readLoop k m.toReader fuel c off count = some r →
      r.2.2.1.map (·.offsetOfPageInFile)
        = (List.range (pagesCovering k count)).map (fun i => off + i * k.PAGESIZE) := by
  intro fuel
  induction fuel with
  | zero => intro c off count r _ _ _ h; simp [CacheReader.readLoop] at h
  | succ fuel ih =>
    intro c off count r hc hal hb h
    by_cases h0 : count = 0
    · subst h0
      rw [readLoop_zero] at h
      cases h
      simp [pagesCovering_zero hk]
    · have ha : off % k.PAGESIZE = 0 := by
        rcases hal with h | h
        · exact absurd h h0
        · exact h
      rw [readLoop_succ h0] at h
      simp only at h
      have hP := hk.pagesize_pos
      have hP2 := hk.pagesize_lt
      rw [ha, Nat.sub_zero] at h
      obtain ⟨res, hr, hrc, -, hbl⟩ := MemReader.read_page k m hdata hlen
        (show off ≤ m.len by omega)
      obtain ⟨h1, -, h3⟩ := getPage_coherent hc hr hbl
      generalize CacheReader.getPage k m.toReader c off = pg at h h1 h3
      have hs : subWrap pg.1.len 0 = pg.1.len := by
        rw [subWrap_of_le (Nat.zero_le _) (by omega)]; rfl
      rw [hs] at h
      by_cases hl : pg.1.len ≠ k.PAGESIZE
      · rw [if_pos hl] at h
        cases h
        rw [pagesCovering_le hk (by omega) (by omega)]
        simp [List.range_succ]
      · rw [if_neg hl] at h
        have hl2 : pg.1.len = k.PAGESIZE := not_not.1 hl
        split at h
        · rename_i off1 out tr c1 heq
          cases h
          rw [hl2] at heq
          by_cases hcp : count ≤ k.PAGESIZE
          · have e : min k.PAGESIZE count = count := by omega
            rw [e, Nat.sub_self] at heq
            have := ih _ _ _ (off1, out, tr, c1) h3 (Or.inl rfl)
              (by rw [addWrap_of_lt (by omega)]; omega) heq
            simp only [pagesCovering_zero hk, List.range_zero, List.map_nil] at this
            rw [pagesCovering_le hk (by omega) hcp]
            simp only [List.map_cons, this]
            simp [List.range_succ]
          · have e : min k.PAGESIZE count = k.PAGESIZE := by omega
            rw [e, addWrap_of_lt (by omega)] at heq
            have := ih _ _ _ (off1, out, tr, c1) h3
              (Or.inr (by rw [Nat.add_mod_right]; exact ha)) (by omega) heq
            simp only at this
            rw [pagesCovering_gt hk (by omega), List.range_succ_eq_map]
            simp only [List.map_cons, this, List.map_map]
            refine congrArg₂ List.cons (by simp) ?_
            apply List.map_congr_left
            intro i _
            simp only [Function.comp]
            rw [Nat.succ_mul]
            omega
        · cases h

theorem mul_lt_of_lt_pagesCovering {k : Consts} (hk : k.WF) {i n : Nat}
    (h : i < pagesCovering k n) : i * k.PAGESIZE < n := by
  unfold pagesCovering at h
  have hP := hk.pagesize_pos
  rw [Nat.lt_iff_add_one_le, Nat.le_div_iff_mul_le hP, Nat.add_mul] at h
  omega

theorem read_copies {k : Consts} {up : Reader} {c : CacheReader} {off count : Nat}
    {r : CacheRead} {c1 : CacheReader}
    (h : CacheReader.read k up c off count = some (r, c1)) :
    ∃ off1, CacheReader.readLoop k up (count + 1) c off count
      = some (off1, r.bytes, r.copies, c1) := by
  unfold CacheReader.read at h
  split at h
  · rename_i off1 out tr c2 heq
    cases h
    exact ⟨off1, heq⟩
  · cases h

/-- Reads over a `MemReader` that end inside the data, from a state that
holds every page of the data: no upstream read is issued. -/
theorem run_inside_mem {k : Consts} (hk : k.WF) (m : MemReader)
    (hdata : m.data.length = m.len) (hlen : m.len < 2 ^ 63) :
    ∀ (rs : List (Nat × Nat)) (c : CacheReader),
      (∀ r ∈ rs, r.1 + r.2 ≤ m.len) →
      (∀ p ∈ c.pages, Page.Coherent k m.toReader p) →
      (∀ q, q % k.PAGESIZE = 0 → q < m.len → q ∈ c.offsets) →
      ∃ c2, CacheReader.run k m.toReader (readOps rs) c = some c2
        ∧ c2.upstreamReads = c.upstreamReads := by
  intro rs
  induction rs with
  | nil => intro c _ _ _; exact ⟨c, rfl, rfl⟩
  | cons r rs ih =>
    intro c hrs hc hres
    have hr12 := hrs r (List.mem_cons_self _ _)
    obtain ⟨rr, c1, hr, -, -, hc1⟩ :=
      read_mem hk m hdata hlen c r.1 r.2 hc (by omega)
    obtain ⟨off1, hloop⟩ := read_copies hr
    have hb := readLoop_visited_bound _ _ _ _ _ (by omega) hloop
    simp only at hb
    have hst := read_state hr
    obtain ⟨hu, hperm⟩ := getPages_of_mem (k := k) m.toReader
      (rr.copies.map (·.offsetOfPageInFile)) c (by
        intro q hq
        obtain ⟨cp, hcp, rfl⟩ := List.mem_map.1 hq
        obtain ⟨h1, h2⟩ := hb cp hcp
        exact hres _ h1 (by omega))
    rw [← hst] at hu hperm
    obtain ⟨c2, hrun, hu2⟩ := ih c1 (fun x hx => hrs x (List.mem_cons_of_mem _ hx)) hc1
      (fun q h1 h2 => (offsets_perm hperm).symm.subset (hres q h1 h2))
    refine ⟨c2, ?_, hu2.trans hu⟩
    simp only [readOps, List.map_cons, CacheReader.run, CacheReader.step, hr,
      Option.map_some']
    exact hrun

/-- C10: on a fresh cache over a `MemReader` of `len` bytes that
`ceil(len / PAGESIZE) <= MAXPAGES` pages cover, `read(0, len)` returns all
`len` bytes and issues exactly the upstream reads `(i * PAGESIZE, PAGESIZE)`
for `i = 0 .. ceil(len / PAGESIZE) - 1`, in this order; further cache reads of
ranges inside the data issue no upstream read. -/
theorem C10_upstream_loads (k : Consts) (hk : k.WF) (m : MemReader)
    (hdata : m.data.length = m.len) (hlen : m.len < 2 ^ 63)
    (hcap : pagesCovering k m.len ≤ k.MAXPAGES)
    (rs : List (Nat × Nat)) (hrs : ∀ r ∈ rs, r.1 + r.2 ≤ m.len) :
    ∃ r c1 c2,
      CacheReader.read k m.toReader CacheReader.empty 0 m.len = some (r, c1)
      ∧ r.rc = m.len ∧ r.bytes = m.data
      ∧ c1.upstreamReads
          = (List.range (pagesCovering k m.len)).map
              (fun i => (i * k.PAGESIZE, k.PAGESIZE))
      ∧ CacheReader.run k m.toReader (readOps rs) c1 = some c2
      ∧ c2.upstreamReads = c1.upstreamReads := by
  have hP := hk.pagesize_pos
  have he : ∀ p ∈ CacheReader.empty.pages, Page.Coherent k m.toReader p := by
    simp [CacheReader.empty]
  obtain ⟨r, c1, hr, hrc, hbytes, hc1⟩ :=
    read_mem hk m hdata hlen CacheReader.empty 0 m.len he (Nat.zero_le _)
  obtain ⟨off1, hloop⟩ := read_copies hr
  have hvis := readLoop_mem_visited hk m hdata hlen _ _ _ _ _ he (Or.inr (Nat.zero_mod _))
    (by omega) hloop
  simp only [Nat.zero_add] at hvis
  have hst := read_state hr
  rw [hvis] at hst
  obtain ⟨ho, hu⟩ := getPages_distinct hk
    ((List.range (pagesCovering k m.len)).map (fun i => i * k.PAGESIZE))
    CacheReader.empty
    (by
      intro q hq
      obtain ⟨i, hi, rfl⟩ := List.mem_map.1 hq
      have := mul_lt_of_lt_pagesCovering hk (List.mem_range.1 hi)
      obtain ⟨res, hres, -⟩ := MemReader.read_page k m hdata hlen
        (show i * k.PAGESIZE ≤ m.len by omega)
      exact ⟨res, hres⟩)
    ((List.nodup_range _).map (fun a b hab =>
      Nat.eq_of_mul_eq_mul_right hP hab))
    (by simp [CacheReader.empty, CacheReader.offsets])
    (by simp [CacheReader.empty])
  rw [← hst] at ho hu
  have hres : ∀ q, q % k.PAGESIZE = 0 → q < m.len → q ∈ c1.offsets := by
    intro q h1 h2
    rw [ho]
    have hq : q / k.PAGESIZE * k.PAGESIZE = q :=
      Nat.div_mul_cancel (Nat.dvd_of_mod_eq_zero h1)
    have hi : q / k.PAGESIZE < pagesCovering k m.len :=
      lt_pagesCovering hk (by omega)
    have hmem : q ∈ ((List.range (pagesCovering k m.len)).map
        (fun i => i * k.PAGESIZE)).reverse := by
      rw [List.mem_reverse]
      exact List.mem_map.2 ⟨_, List.mem_range.2 hi, hq⟩
    rw [List.take_of_length_le]
    · exact List.mem_append_left _ hmem
    · simp [CacheReader.empty, CacheReader.offsets]; exact hcap
  obtain ⟨c2, hrun, hu2⟩ := run_inside_mem hk m hdata hlen rs c1 hrs hc1 hres
  refine ⟨r, c1, c2, hr, ?_, ?_, ?_, hrun, hu2⟩
  · rw [hrc]; omega
  · rw [hbytes]
    unfold memcpy
    simp only [List.drop_zero, Nat.sub_zero, Nat.min_self]
    exact List.take_of_length_le (by omega)
  · rw [hu]
    simp [CacheReader.empty, List.map_map, Function.comp]

/-- C10 at the scenario of the spec: pages of 4 bytes over "0123456789",
3 loads at offsets 0, 4, 8, and none for the reads that follow. -/
theorem C10_upstream_loads_witness :
    scenarioConsts.WF ∧ digits.data.length = digits.len ∧ digits.len < 2 ^ 63
    ∧ pagesCovering scenarioConsts digits.len ≤ scenarioConsts.MAXPAGES
    ∧ (∀ r ∈ [(0, 10), (3, 6), (9, 1)], r.1 + r.2 ≤ digits.len)
    ∧ (List.range (pagesCovering scenarioConsts digits.len)).map
          (fun i => (i * scenarioConsts.PAGESIZE, scenarioConsts.PAGESIZE))
        = [(0, 4), (4, 4), (8, 4)]
    ∧ ∃ r c1 c2,
      CacheReader.read scenarioConsts digits.toReader CacheReader.empty 0 digits.len
        = some (r, c1)
      ∧ r.rc = digits.len ∧ r.bytes = digits.data
      ∧ c1.upstreamReads
          = (List.range (pagesCovering scenarioConsts digits.len)).map
              (fun i => (i * scenarioConsts.PAGESIZE, scenarioConsts.PAGESIZE))
      ∧ CacheReader.run scenarioConsts digits.toReader
          (readOps [(0, 10), (3, 6), (9, 1)]) c1 = some c2
      ∧ c2.upstreamReads = c1.upstreamReads :=
  ⟨scenarioConsts_wf, by decide, by decide, by decide, by decide, by decide,
   C10_upstream_loads scenarioConsts scenarioConsts_wf digits (by decide) (by decide)
     (by decide) [(0, 10), (3, 6), (9, 1)] (by decide)⟩

/-! ### readString -/

theorem drop_cons_of_lt (data : List Byte) {off : Nat} (h : off < data.length) :
    ∃ d, data.drop off = d :: data.drop (off + 1) ∧ memcpy data off 1 = [d] := by
  refine ⟨data[off], List.drop_eq_getElem_cons h, ?_⟩
  unfold memcpy
  rw [List.drop_eq_getElem_cons h]
  rfl

theorem toSigned_lt_iff {a b : Nat} (ha : a < 2 ^ 63) (hb : b < 2 ^ 63) :
    toSigned a < toSigned b ↔ a < b := by
  rw [toSigned_of_lt ha, toSigned_of_lt hb]; omega

/-- The loop of `Reader::readString` on a `MemReader`: the bytes from `offset`
up to the first zero byte or the end of the data. -/
theorem MemReader.readStringLoop_eq (m : MemReader)
    (hdata : m.data.length = m.len) (hlen : m.len < 2 ^ 63) :
    ∀ (fuel offset : Nat) (res : List Byte), offset ≤ m.len → m.len - offset < fuel →
      Reader.readStringLoop m.toReader fuel offset m.len res
        = some (some (res ++ (m.data.drop offset).takeWhile (fun b => b != 0))) := by
  intro fuel
  induction fuel with
  | zero => intro offset res _ h; omega
  | succ fuel ih =>
    intro offset res ho hf
    rw [Reader.readStringLoop]
    by_cases hlt : offset < m.len
    · have h1 : toSigned offset < toSigned m.len :=
        (toSigned_lt_iff (by omega) hlen).2 hlt
      rw [if_neg (not_not.2 h1)]
      have hr : m.toReader.read offset 1
          = some { rc := 1, bytes := memcpy m.data offset 1 } := by
        show m.read offset 1 = _
        rw [MemReader.read_of_le m offset 1 hlen ho]
        have : min 1 (m.len - offset) = 1 := by omega
        rw [this]; rfl
      obtain ⟨d, hd, hm⟩ := drop_cons_of_lt m.data (show offset < m.data.length by omega)
      rw [hr, hm, hd]
      simp only [ne_eq, not_true_eq_false, if_false, List.headD_cons, List.takeWhile_cons]
      by_cases hz : d = 0
      · simp [hz]
      · rw [if_neg hz, addWrap_of_lt (by omega), ih _ _ (by omega) (by omega)]
        simp [hz]
    · have h1 : ¬ toSigned offset < toSigned m.len := by
        rw [toSigned_lt_iff (by omega) hlen]; exact hlt
      rw [if_pos h1]
      have : m.data.drop offset = [] := List.drop_eq_nil_of_le (by omega)
      simp [this]

/-- The same loop run on a `CacheReader` over the `MemReader`, from a state
with coherent pages. -/
theorem readStringLoop_mem {k : Consts} (hk : k.WF) (m : MemReader)
    (hdata : m.data.length = m.len) (hlen : m.len < 2 ^ 63) :
    ∀ (fuel : Nat) (c : CacheReader) (offset : Nat) (res : List Byte),
      (∀ p ∈ c.pages, Page.Coherent k m.toReader p) →
      offset ≤ m.len → m.len - offset < fuel →
      ∃ c1, CacheReader.readStringLoop k m.toReader fuel c offset m.len res
          = some (res ++ (m.data.drop offset).takeWhile (fun b => b != 0), c1)
        ∧ ∀ p ∈ c1.pages, Page.Coherent k m.toReader p := by
  intro fuel
  induction fuel with
  | zero => intro c offset res _ _ h; omega
  | succ fuel ih =>
    intro c offset res hc ho hf
    rw [CacheReader.readStringLoop]
    by_cases hlt : offset < m.len
    · have h1 : toSigned offset < toSigned m.len :=
        (toSigned_lt_iff (by omega) hlen).2 hlt
      rw [if_neg (not_not.2 h1)]
      obtain ⟨r, c1, hr, hrc, hb, hc1⟩ := read_mem hk m hdata hlen c offset 1 hc ho
      have hmin : min 1 (m.len - offset) = 1 := by omega
      rw [hmin] at hrc hb
      obtain ⟨d, hd, hm⟩ := drop_cons_of_lt m.data (show offset < m.data.length by omega)
      rw [hr]
      simp only [hrc, hb, hm, hd, ne_eq, not_true_eq_false, if_false, List.headD_cons,
        List.takeWhile_cons]
      by_cases hz : d = 0
      · exact ⟨c1, by simp [hz], hc1⟩
      · rw [if_neg hz, addWrap_of_lt (by omega)]
        obtain ⟨c2, h2, hc2⟩ := ih c1 (offset + 1) (res ++ [d]) hc1 (by omega) (by omega)
        exact ⟨c2, by rw [h2]; simp [hz], hc2⟩
    · have h1 : ¬ toSigned offset < toSigned m.len := by
        rw [toSigned_lt_iff (by omega) hlen]; exact hlt
      rw [if_pos h1]
      have : m.data.drop offset = [] := List.drop_eq_nil_of_le (by omega)
      exact ⟨c, by simp [this], hc⟩

/-- C11: over a `MemReader` of `len` bytes, for every offset `o <= len`,
`readString(o)` on the `MemReader` and on a fresh `CacheReader` over it is the
longest run of non-zero bytes of the data from `o` on (up to the first zero
byte or the end of the data). -/
theorem C11_readString_result (k : Consts) (hk : k.WF) (m : MemReader)
    (hdata : m.data.length = m.len) (hlen : m.len < 2 ^ 63)
    (o : Nat) (ho : o ≤ m.len) :
    Reader.readString m.toReader o
      = some (some ((m.data.drop o).takeWhile (fun b => b != 0)))
    ∧ ∃ c1, CacheReader.readString k m.toReader CacheReader.empty o
      = some (some ((m.data.drop o).takeWhile (fun b => b != 0)), c1) := by
  have hfuel : (toSigned m.len - toSigned o).toNat + 1 = m.len - o + 1 := by
    rw [toSigned_of_lt hlen, toSigned_of_lt (show o < 2 ^ 63 by omega)]; omega
  constructor
  · unfold Reader.readString
    show (match some m.len with
      | none => some none
      | some s => Reader.readStringLoop m.toReader
          ((toSigned s - toSigned o).toNat + 1) o s []) = _
    simp only
    rw [hfuel, MemReader.readStringLoop_eq m hdata hlen _ _ _ ho (by omega)]
    simp
  · obtain ⟨c1, h1, -⟩ := readStringLoop_mem hk m hdata hlen (m.len - o + 1)
      { CacheReader.empty with stringCache := [(o, CacheEnt.fresh)] } o []
      (by simp [CacheReader.empty]) ho (by omega)
    unfold CacheReader.readString
    simp only [CacheReader.empty, cacheFind, Option.getD_none, CacheEnt.fresh, if_true]
    have hs : m.toReader.size = some m.len := rfl
    rw [hs]
    simp only
    rw [hfuel]
    simp only [CacheReader.empty, CacheEnt.fresh] at h1
    rw [h1]
    exact ⟨_, rfl⟩

/-- C11 at the scenario of the spec: over "ab\0cd", `readString(0)` is "ab"
and `readString(3)` is "cd". -/
theorem C11_readString_result_witness :
    scenarioConsts.WF ∧ abzcd.data.length = abzcd.len ∧ abzcd.len < 2 ^ 63
    ∧ (0 ≤ abzcd.len ∧ 3 ≤ abzcd.len)
    ∧ (Reader.readString abzcd.toReader 0 = some (some [97, 98])
      ∧ ∃ c1, CacheReader.readString scenarioConsts abzcd.toReader CacheReader.empty 0
        = some (some [97, 98], c1))
    ∧ (Reader.readString abzcd.toReader 3 = some (some [99, 100])
      ∧ ∃ c1, CacheReader.readString scenarioConsts abzcd.toReader CacheReader.empty 3
        = some (some [99, 100], c1)) :=
  ⟨scenarioConsts_wf, by decide, by decide, by decide,
   C11_readString_result scenarioConsts scenarioConsts_wf abzcd (by decide) (by decide)
     0 (by decide),
   C11_readString_result scenarioConsts scenarioConsts_wf abzcd (by decide) (by decide)
     3 (by decide)⟩

/-! ### The string cache -/

theorem getPages_stringCache {k : Consts} (up : Reader) :
    ∀ (qs : List Nat) (c : CacheReader),
      (getPages k up c qs).stringCache = c.stringCache := by
  intro qs
  induction qs with
  | nil => intro c; rfl
  | cons q qs ih =>
    intro c
    rw [getPages_cons, ih, getPage_stringCache]

theorem read_stringCache {k : Consts} {up : Reader} {c : CacheReader} {off count : Nat}
    {r : CacheRead} {c1 : CacheReader}
    (h : CacheReader.read k up c off count = some (r, c1)) :
    c1.stringCache = c.stringCache := by
  rw [read_state h, getPages_stringCache]

theorem readStringLoop_stringCache {k : Consts} {up : Reader} :
    ∀ (fuel : Nat) (c : CacheReader) (offset s : Nat) (res : List Byte)
      (r : List Byte × CacheReader),
      CacheReader.readStringLoop k up fuel c offset s res = some r →
      r.2.stringCache = c.stringCache := by
  intro fuel
  induction fuel with
  | zero => intro c offset s res r h; simp [CacheReader.readStringLoop] at h
  | succ fuel ih =>
    intro c offset s res r h
    rw [CacheReader.readStringLoop] at h
    split at h
    · cases h; rfl
    · split at h
      · cases h
      · rename_i rr c1 heq
        have h1 := read_stringCache heq
        split at h
        · cases h; exact h1
        · simp only at h
          split at h
          · cases h; exact h1
          · exact (ih _ _ _ _ _ h).trans h1

theorem cacheFind_cacheSet_same {o : Nat} {e e0 : CacheEnt} :
    ∀ {sc : List (Nat × CacheEnt)}, cacheFind o sc = some e0 →
      cacheFind o (cacheSet o e sc) = some e := by
  intro sc
  induction sc with
  | nil => intro h; simp [cacheFind] at h
  | cons a sc ih =>
    intro h
    obtain ⟨o1, e1⟩ := a
    by_cases ho : o1 = o
    · simp [cacheSet, cacheFind, ho]
    · simp only [cacheFind, ho, if_false] at h
      simp only [cacheSet, ho, if_false, cacheFind]
      exact ih h

theorem cacheFind_cacheSet_ne {o o1 : Nat} (hne : o1 ≠ o) (e : CacheEnt) :
    ∀ (sc : List (Nat × CacheEnt)), cacheFind o (cacheSet o1 e sc) = cacheFind o sc := by
  intro sc
  induction sc with
  | nil => rfl
  | cons a sc ih =>
    obtain ⟨o2, e2⟩ := a
    by_cases h1 : o2 = o1
    · have h2 : o2 ≠ o := by rw [h1]; exact hne
      simp [cacheSet, cacheFind, h1, hne]
    · by_cases h2 : o2 = o
      · subst h2
        have h3 : ¬ o1 = o2 := hne
        simp [cacheSet, cacheFind, h1, h3]
      · simp only [cacheSet, h1, if_false, cacheFind, h2]
        exact ih

/-- The state `stringCache[off]` leaves: the entry made when absent. -/
theorem cacheFind_entry (o : Nat) (c : CacheReader) :
    cacheFind o (match cacheFind o c.stringCache with
        | some _ => c
        | none => { c with stringCache := (o, CacheEnt.fresh) :: c.stringCache }).stringCache
      = some ((cacheFind o c.stringCache).getD CacheEnt.fresh) := by
  cases h : cacheFind o c.stringCache with
  | none => simp [cacheFind]
  | some e => simp [h]

theorem cacheFind_entry_ne {o o1 : Nat} (hne : o1 ≠ o) (c : CacheReader) :
    cacheFind o (match cacheFind o1 c.stringCache with
        | some _ => c
        | none => { c with stringCache := (o1, CacheEnt.fresh) :: c.stringCache }).stringCache
      = cacheFind o c.stringCache := by
  cases h : cacheFind o1 c.stringCache with
  | none => simp [cacheFind, hne]
  | some e => rfl

/-- After `readString(o)` the string cache has settled its outcome. -/
theorem readString_settles {k : Consts} {up : Reader} {c c1 : CacheReader} {o : Nat}
    {r : Option (List Byte)}
    (h : CacheReader.readString k up c o = some (r, c1)) : Settled up o r c1 := by
  unfold CacheReader.readString at h
  simp only at h
  have hent := cacheFind_entry o c
  generalize hc0 : (match cacheFind o c.stringCache with
        | some _ => c
        | none => { c with stringCache := (o, CacheEnt.fresh) :: c.stringCache }) = c0
    at h hent
  generalize (cacheFind o c.stringCache).getD CacheEnt.fresh = entry at h hent
  split at h
  · rename_i hnew
    split at h
    · rename_i hs
      cases h
      exact ⟨hs, entry, hent, hnew⟩
    · split at h
      · cases h
      · rename_i s hs res c2 heq
        cases h
        have hsc := readStringLoop_stringCache _ _ _ _ _ _ heq
        simp only at hsc
        show cacheFind o (cacheSet o _ c2.stringCache) = _
        rw [hsc]
        exact cacheFind_cacheSet_same hent
  · rename_i hnew
    cases h
    simp only [Settled]
    rw [hent]
    cases entry with
    | mk v n =>
      cases n with
      | true => exact absurd rfl hnew
      | false => rfl

/-- A settled `readString(o)` gives its outcome again and changes nothing. -/
theorem readString_of_settled {k : Consts} {up : Reader} {c : CacheReader} {o : Nat}
    {r : Option (List Byte)} (h : Settled up o r c) :
    CacheReader.readString k up c o = some (r, c) := by
  unfold CacheReader.readString
  cases r with
  | some v =>
    have h1 : cacheFind o c.stringCache = some { value := v, isNew := false } := h
    simp [h1]
  | none =>
    obtain ⟨hs, e, he, hn⟩ := h
    simp [he, hn, hs]

/-- A call `readString(o1)` at another offset leaves the entry of `o`. -/
theorem readString_cacheFind_ne {k : Consts} {up : Reader} {c c1 : CacheReader}
    {o o1 : Nat} {r : Option (List Byte)} (hne : o1 ≠ o)
    (h : CacheReader.readString k up c o1 = some (r, c1)) :
    cacheFind o c1.stringCache = cacheFind o c.stringCache := by
  unfold CacheReader.readString at h
  simp only at h
  have hent := cacheFind_entry_ne hne c
  generalize hc0 : (match cacheFind o1 c.stringCache with
        | some _ => c
        | none => { c with stringCache := (o1, CacheEnt.fresh) :: c.stringCache }) = c0
    at h hent
  split at h
  · split at h
    · cases h; exact hent
    · split at h
      · cases h
      · rename_i s hs res c2 heq
        cases h
        have hsc := readStringLoop_stringCache _ _ _ _ _ _ heq
        simp only at hsc
        show cacheFind o (cacheSet o1 _ c2.stringCache) = _
        rw [cacheFind_cacheSet_ne hne, hsc]
        exact hent
  · cases h; exact hent

theorem Settled.of_cacheFind_eq {up : Reader} {o : Nat} {r : Option (List Byte)}
    {c c1 : CacheReader} (h : Settled up o r c)
    (he : cacheFind o c1.stringCache = cacheFind o c.stringCache) : Settled up o r c1 := by
  cases r with
  | some v => exact he.trans h
  | none =>
    obtain ⟨hs, e, h1, h2⟩ := h
    exact ⟨hs, e, he.trans h1, h2⟩

theorem step_settled {k : Consts} {up : Reader} {c c1 : CacheReader} {o : Nat}
    {r : Option (List Byte)} {op : Op} (h : Settled up o r c)
    (hs : CacheReader.step k up c op = some c1) : Settled up o r c1 := by
  cases op with
  | read off count =>
    simp only [CacheReader.step, Option.map_eq_some'] at hs
    obtain ⟨⟨rr, c2⟩, hr, rfl⟩ := hs
    exact h.of_cacheFind_eq (by rw [read_stringCache hr])
  | readString o1 =>
    simp only [CacheReader.step, Option.map_eq_some'] at hs
    obtain ⟨⟨rr, c2⟩, hr, rfl⟩ := hs
    by_cases hne : o1 = o
    · subst hne
      rw [readString_of_settled h] at hr
      cases hr
      exact h
    · exact h.of_cacheFind_eq (readString_cacheFind_ne hne hr)

theorem run_settled {k : Consts} {up : Reader} {o : Nat} {r : Option (List Byte)} :
    ∀ (ops : List Op) (c c1 : CacheReader), Settled up o r c →
      CacheReader.run k up ops c = some c1 → Settled up o r c1 := by
  intro ops
  induction ops with
  | nil => intro c c1 h hr; simp [CacheReader.run] at hr; subst hr; exact h
  | cons op ops ih =>
    intro c c1 h hr
    rw [CacheReader.run] at hr
    split at hr
    · rename_i c2 heq
      exact ih _ _ (step_settled h heq) hr
    · cases hr

/-- C12: from every `CacheReader` state, over any upstream, `readString(o)`
returns (a string, or the exception of `size()`); after any further calls the
second `readString(o)` has the same outcome and leaves the whole state as it
was, so it issues no upstream read and does not change the page list. -/
theorem C12_readString_idempotent (k : Consts) (hk : k.WF) (up : Reader)
    (c : CacheReader) (o : Nat) (mid : List Op) :
    ∃ r1 c1 c2,
      CacheReader.readString k up c o = some (r1, c1)
      ∧ CacheReader.run k up mid c1 = some c2
      ∧ CacheReader.readString k up c2 o = some (r1, c2) := by
  obtain ⟨⟨r1, c1⟩, h1⟩ := readString_isSome hk up c o
  obtain ⟨c2, h2⟩ := run_isSome hk up mid c1
  exact ⟨r1, c1, c2, h1, h2,
    readString_of_settled (run_settled mid c1 c2 (readString_settles h1) h2)⟩

/-- C12 over "ab\0cd": `readString(3)`, then a read and two string reads,
then `readString(3)` again. -/
theorem C12_readString_idempotent_witness :
    scenarioConsts.WF
    ∧ ∃ r1 c1 c2,
      CacheReader.readString scenarioConsts abzcd.toReader CacheReader.empty 3
        = some (r1, c1)
      ∧ CacheReader.run scenarioConsts abzcd.toReader
          [Op.read 0 5, Op.readString 0, Op.readString 3] c1 = some c2
      ∧ CacheReader.readString scenarioConsts abzcd.toReader c2 3 = some (r1, c2) :=
  ⟨scenarioConsts_wf,
   C12_readString_idempotent scenarioConsts scenarioConsts_wf abzcd.toReader
     CacheReader.empty 3 [Op.read 0 5, Op.readString 0, Op.readString 3]⟩

/-! ### readString and a read that fails -/

/-- The loop of `Reader::readString` when the next reads give the non-zero
bytes `rest` one by one and the read after them gives `fres`, an exception or
a count other than 1: the exception leaves the loop, the short read ends it. -/
theorem Reader.readStringLoop_fail (r : Reader) (s : Nat) (hs : s < 2 ^ 63)
    (fres : Option ReadResult) (hshort : ∀ x, fres = some x → x.rc ≠ 1) :
    ∀ (rest : List Byte) (fuel offset : Nat) (res : List Byte),
      (∀ i, i < rest.length →
        (r.read (offset + i) 1).map (fun rr => (rr.rc, rr.bytes.headD 0))
            = some (1, rest.getD i 0) ∧ rest.getD i 0 ≠ 0) →
      offset + rest.length < s → rest.length < fuel →
      r.read (offset + rest.length) 1 = fres →
      Reader.readStringLoop r fuel offset s res
        = some (fres.map (fun _ => res ++ rest)) := by
  intro rest
  induction rest with
  | nil =>
    intro fuel offset res _ hlt hf hfail
    obtain ⟨n, rfl⟩ : ∃ n, fuel = n + 1 := ⟨fuel - 1, by omega⟩
    rw [Reader.readStringLoop]
    simp only [List.length_nil, Nat.add_zero] at hlt hfail
    have h1 : toSigned offset < toSigned s := (toSigned_lt_iff (by omega) hs).2 hlt
    rw [if_neg (not_not.2 h1), hfail]
    cases fres with
    | none => rfl
    | some x =>
      simp only
      rw [if_pos (hshort x rfl)]
      simp
  | cons b rest ih =>
    intro fuel offset res hbs hlt hf hfail
    obtain ⟨n, rfl⟩ : ∃ n, fuel = n + 1 := ⟨fuel - 1, by omega⟩
    rw [Reader.readStringLoop]
    simp only [List.length_cons] at hlt hf hfail
    have h1 : toSigned offset < toSigned s := (toSigned_lt_iff (by omega) hs).2 (by omega)
    rw [if_neg (not_not.2 h1)]
    obtain ⟨h0, hb⟩ := hbs 0 (by simp)
    simp only [Nat.add_zero, List.getD_cons_zero] at h0 hb
    cases hr : r.read offset 1 with
    | none => rw [hr] at h0; simp at h0
    | some rr =>
      rw [hr] at h0
      simp only [Option.map_some', Option.some.injEq, Prod.mk.injEq] at h0
      simp only
      rw [if_neg (not_not.2 h0.1), h0.2, if_neg hb, addWrap_of_lt (by omega)]
      rw [ih n (offset + 1) (res ++ [b]) ?_ (by omega) (by omega)
        (by rw [← hfail]; congr 1; omega)]
      · simp
      · intro i hi
        have := hbs (i + 1) (by simp; omega)
        simp only [List.getD_cons_succ] at this
        rw [show offset + 1 + i = offset + (i + 1) by omega]
        exact this

/-- C13 (amended): in `Reader::readString(o)`, when the one-byte reads from
`o` on give the non-zero bytes `bs` and the next read, issued below `size()`,
fails, the outcome depends on how it fails: a read that returns a count other
than 1 ends the string, and `readString` returns exactly `bs`; a read that
raises is not caught, and the exception leaves `readString`. -/
theorem C13_readString_read_failure (r : Reader) (s o : Nat) (bs : List Byte)
    (fres : Option ReadResult)
    (hsize : r.size = some s) (hs : s < 2 ^ 63)
    (hbs : ∀ i, i < bs.length →
      (r.read (o + i) 1).map (fun rr => (rr.rc, rr.bytes.headD 0))
          = some (1, bs.getD i 0) ∧ bs.getD i 0 ≠ 0)
    (hrange : o + bs.length < s)
    (hfail : r.read (o + bs.length) 1 = fres)
    (hshort : ∀ x, fres = some x → x.rc ≠ 1) :
    Reader.readString r o
      = some (fres.map (fun _ => bs)) := by
  unfold Reader.readString
  rw [hsize]
  simp only
  have hf : (toSigned s - toSigned o).toNat + 1 = s - o + 1 := by
    rw [toSigned_of_lt hs, toSigned_of_lt (show o < 2 ^ 63 by omega)]; omega
  rw [hf, Reader.readStringLoop_fail r s hs fres hshort bs _ o [] hbs hrange (by omega) hfail]
  simp

/-- C13 as stated fails: on a `FileReader` over "abcd" whose `pread` fails at
offset 2, the reads at 0 and 1 give "a" and "b", the read at 2 raises, and
`readString(0)` raises instead of returning "ab". -/
theorem C13_read_exception_propagates :
    faultyFile.size = some 4
    ∧ faultyFile.read 0 1 = some { rc := 1, bytes := [97] }
    ∧ faultyFile.read 1 1 = some { rc := 1, bytes := [98] }
    ∧ faultyFile.read 2 1 = none
    ∧ Reader.readString faultyFile 0 = some none := by
  decide

/-- C13 (amended) on a file cut to "ab" whose `size()` still says 4: the read
at offset 2 returns 0 bytes and `readString(0)` returns "ab". -/
theorem C13_readString_read_failure_witness :
    truncatedFile.size = some 4 ∧ 4 < 2 ^ 63
    ∧ (∀ i, i < [(97 : Byte), 98].length →
        (truncatedFile.read (0 + i) 1).map (fun rr => (rr.rc, rr.bytes.headD 0))
            = some (1, [(97 : Byte), 98].getD i 0) ∧ [(97 : Byte), 98].getD i 0 ≠ 0)
    ∧ 0 + [(97 : Byte), 98].length < 4
    ∧ truncatedFile.read (0 + [(97 : Byte), 98].length) 1
        = some { rc := 0, bytes := [] }
    ∧ (∀ x : ReadResult, some { rc := 0, bytes := [] } = some x → x.rc ≠ 1)
    ∧ Reader.readString truncatedFile 0
      = some ((some ({ rc := 0, bytes := [] } : ReadResult)).map (fun _ => [97, 98])) :=
  ⟨rfl, by decide, by decide, by decide, by decide,
   fun x h => by cases h; decide,
   C13_readString_read_failure truncatedFile 4 0 [97, 98] (some { rc := 0, bytes := [] })
     rfl (by decide) (by decide) (by decide) (by decide)
     (fun x h => by cases h; decide)⟩

/-! ### A page load that raises leaves the offset of the page as it was

`Page::load` (reader.cc:142-148) assigns `offset` after the upstream read,
inside the `try`: when the read raises, `len` becomes 0 and `offset` keeps its
old value, that of the page evicted for the load or what `new Page()` left.
`getPage` pushes the page to the front all the same. -/

/-- C14: with the original constants over a memory source of 16 full pages,
after one read in each page the cache is full; the upstream read of the page
at 69632 raises and is absorbed, but the page it was loaded into stays
recorded under offset 0 (with `len = 0`), not under 69632, so the next
`read(69632, 1)` does not find it and issues the upstream read again. -/
theorem C14_fault_not_remembered :
    sixteenPages.toReader.read 69632 stdConsts.PAGESIZE = none
    ∧ (CacheReader.run stdConsts sixteenPages.toReader
        (readOps (fillSixteen ++ [(69632, 1)])) CacheReader.empty).map
      (fun c => (c.offsets, c.pages.map (·.len), c.upstreamReads.length))
      = some ([0, 61440, 57344, 53248, 49152, 45056, 40960, 36864, 32768, 28672,
               24576, 20480, 16384, 12288, 8192, 4096],
              [0, 4096, 4096, 4096, 4096, 4096, 4096, 4096, 4096, 4096, 4096, 4096,
               4096, 4096, 4096, 4096], 17)
    ∧ (CacheReader.run stdConsts sixteenPages.toReader
        (readOps (fillSixteen ++ [(69632, 1), (69632, 1)])) CacheReader.empty).map
      (fun c => c.upstreamReads.drop 16)
      = some [(69632, 4096), (69632, 4096)] := by
  refine ⟨by decide, ?_, ?_⟩ <;> decide

/-- C16: with the original constants over "0123456789", the page loads for
the reads at 4096 and 8192 both raise; each goes into a new page whose
`offset` is never assigned and keeps what `new Page()` left, here 0 for both:
the list holds two pages with the same recorded offset. -/
theorem C16_duplicate_offsets :
    digits.toReader.read 4096 stdConsts.PAGESIZE = none
    ∧ digits.toReader.read 8192 stdConsts.PAGESIZE = none
    ∧ (CacheReader.run stdConsts digits.toReader
        (readOps [(4096, 1), (8192, 1)]) CacheReader.empty).map
      (fun c => (c.offsets, c.pages.map (·.len), decide c.offsets.Nodup))
      = some ([0, 0], [0, 0], false) := by
  decide

/-- C18: in the state of C14 the page in front is recorded under offset 0
with `len = 0`, while the upstream read of page 0 succeeds with 4096 bytes;
`read(0, 5)` then hits that page and returns 0 bytes with no upstream read,
where before the absorbed failure it returned the 5 bytes of the data. -/
theorem C18_stale_page_shadows_data :
    (sixteenPages.toReader.read 0 stdConsts.PAGESIZE).map (·.rc) = some 4096
    ∧ (CacheReader.run stdConsts sixteenPages.toReader
        (readOps (fillSixteen ++ [(69632, 1)])) CacheReader.empty).map
      (fun c => c.pages.head?.map (fun p => (p.offset, p.len)))
      = some (some (0, 0))
    ∧ ((CacheReader.run stdConsts sixteenPages.toReader
        (readOps (fillSixteen ++ [(69632, 1)])) CacheReader.empty).bind
      (fun c => (CacheReader.read stdConsts sixteenPages.toReader c 0 5).map
        (fun r => (r.1.rc, r.1.bytes, r.2.upstreamReads.length))))
      = some (0, [], 17)
    ∧ ((CacheReader.run stdConsts sixteenPages.toReader
        (readOps fillSixteen) CacheReader.empty).bind
      (fun c => (CacheReader.read stdConsts sixteenPages.toReader c 0 5).map
        (fun r => (r.1.rc, r.1.bytes, r.2.upstreamReads.length))))
      = some (5, [0, 0, 0, 0, 0], 16) := by
  refine ⟨by decide, ?_, ?_, ?_⟩ <;> decide

/-! ### The count `read` returns -/

/-- The loop advances `off` by the bytes it counts as copied, at most `count`
of them. -/
theorem readLoop_advance {k : Consts} {up : Reader} :
    ∀ (fuel : Nat) (c : CacheReader) (off count : Nat)
      (r : Nat × List Byte × List Copy × CacheReader),
      off < 2 ^ 64 →
      CacheReader.readLoop k up fuel c off count = some r →
      ∃ total, total ≤ count ∧ r.1 = (off + total) % 2 ^ 64 := by
  intro fuel
  induction fuel with
  | zero => intro c off count r _ h; simp [CacheReader.readLoop] at h
  | succ fuel ih =>
    intro c off count r hoff h
    by_cases h0 : count = 0
    · subst h0
      rw [readLoop_zero] at h
      cases h
      exact ⟨0, le_refl _, by simp only [Nat.add_zero]; omega⟩
    · rw [readLoop_succ h0] at h
      simp only at h
      generalize hch : min (subWrap (CacheReader.getPage k up c
          (off - off % k.PAGESIZE)).1.len (off % k.PAGESIZE)) count = chunk at h
      have hle : chunk ≤ count := by rw [← hch]; exact Nat.min_le_right _ _
      split at h
      · cases h
        exact ⟨chunk, hle, rfl⟩
      · split at h
        · rename_i off1 out tr c1 heq
          cases h
          obtain ⟨t, ht, he⟩ := ih _ _ _ (off1, out, tr, c1)
            (by unfold addWrap; omega) heq
          simp only at he
          refine ⟨chunk + t, by omega, ?_⟩
          simp only
          rw [he]
          unfold addWrap
          omega
        · cases h

/-- C15: from every state, over every upstream, `read(off, count)` with a
non-negative `off` and a `size_t` count returns a count `rc <= count`; with
`count = 0` it returns 0, stores nothing and leaves the state as it was, so
no upstream read is issued. -/
theorem C15_result_count_bound (k : Consts) (hk : k.WF) (up : Reader)
    (c : CacheReader) (off count : Nat) (hoff : off < 2 ^ 63) (hcount : count < 2 ^ 64) :
    (∃ r c1, CacheReader.read k up c off count = some (r, c1) ∧ r.rc ≤ count)
    ∧ ∃ r0, CacheReader.read k up c off 0 = some (r0, c) ∧ r0.rc = 0 ∧ r0.bytes = [] := by
  constructor
  · obtain ⟨⟨r, c1⟩, hr⟩ := read_isSome hk up c off count
    refine ⟨r, c1, hr, ?_⟩
    unfold CacheReader.read at hr
    split at hr
    · rename_i off1 out tr c2 heq
      cases hr
      obtain ⟨t, ht, he⟩ := readLoop_advance _ _ _ _ (off1, out, tr, c1) (by omega) heq
      simp only at he
      simp only
      rw [he]
      unfold subWrap
      omega
    · cases hr
  · refine ⟨{ rc := subWrap off off, bytes := [], copies := [] }, ?_, ?_, rfl⟩
    · unfold CacheReader.read
      rw [readLoop_zero]
    · simp only
      unfold subWrap
      omega

/-- C15 with 2 pages of 4 bytes over "0123456789": `read(17, 3)`, whose page
load raises upstream. -/
theorem C15_result_count_bound_witness :
    smallConsts.WF ∧ 17 < 2 ^ 63 ∧ 3 < 2 ^ 64
    ∧ ((∃ r c1, CacheReader.read smallConsts digits.toReader CacheReader.empty 17 3
          = some (r, c1) ∧ r.rc ≤ 3)
      ∧ ∃ r0, CacheReader.read smallConsts digits.toReader CacheReader.empty 17 0
          = some (r0, CacheReader.empty) ∧ r0.rc = 0 ∧ r0.bytes = []) :=
  ⟨smallConsts_wf, by decide, by decide,
   C15_result_count_bound smallConsts smallConsts_wf digits.toReader CacheReader.empty
     17 3 (by decide) (by decide)⟩

/-! ### getPage and the order of the list -/

theorem findPage_some_split {q : Nat} :
    ∀ {l : List Page} {p : Page} {rest : List Page},
      findPage q l = some (p, rest) →
      ∃ l1 l2, l = l1 ++ p :: l2 ∧ rest = l1 ++ l2 ∧ p.offset = q
        ∧ ∀ x ∈ l1, x.offset ≠ q := by
  intro l
  induction l with
  | nil => intro p rest h; simp [findPage] at h
  | cons a l ih =>
    intro p rest h
    unfold findPage at h
    by_cases ha : a.offset = q
    · simp only [ha, if_true, Option.some.injEq, Prod.mk.injEq] at h
      obtain ⟨rfl, rfl⟩ := h
      exact ⟨[], l, rfl, rfl, ha, by simp⟩
    · simp only [ha, if_false] at h
      cases hf : findPage q l with
      | none => simp [hf] at h
      | some pr =>
        obtain ⟨p1, r1⟩ := pr
        simp only [hf, Option.some.injEq, Prod.mk.injEq] at h
        obtain ⟨rfl, rfl⟩ := h
        obtain ⟨l1, l2, e1, e2, e3, e4⟩ := ih hf
        refine ⟨a :: l1, l2, by rw [e1]; rfl, by rw [e2]; rfl, e3, ?_⟩
        intro x hx
        rcases List.mem_cons.1 hx with rfl | hx
        · exact ha
        · exact e4 x hx

/-- C17: after `getPage(q)` the page handed back is at the front of the
list, and one of three cases holds.  Hit: the first page with offset `q` is
moved to the front, the others keep their order, nothing else changes (no
upstream read).  Miss with a list not holding `MAXPAGES` pages: a new page is
loaded and put in front of the old list.  Miss with `MAXPAGES` pages: the old
tail is loaded anew and put in front of the others, which keep their order. -/
theorem C17_move_to_front (k : Consts) (hM : 0 < k.MAXPAGES) (up : Reader)
    (c : CacheReader) (q : Nat) :
    (CacheReader.getPage k up c q).2.pages.head? = some (CacheReader.getPage k up c q).1
    ∧ ((∃ l1 p l2, c.pages = l1 ++ p :: l2 ∧ p.offset = q ∧ (∀ x ∈ l1, x.offset ≠ q)
          ∧ CacheReader.getPage k up c q = (p, { c with pages := p :: (l1 ++ l2) }))
      ∨ ((∀ x ∈ c.pages, x.offset ≠ q) ∧ c.pages.length ≠ k.MAXPAGES
          ∧ CacheReader.getPage k up c q
            = (Page.load k up q (k.newPage c.pages.length),
               { c with pages := Page.load k up q (k.newPage c.pages.length) :: c.pages,
                        upstreamReads := c.upstreamReads ++ [(q, k.PAGESIZE)] }))
      ∨ ((∀ x ∈ c.pages, x.offset ≠ q) ∧ c.pages.length = k.MAXPAGES
          ∧ ∃ init last, c.pages = init ++ [last]
            ∧ CacheReader.getPage k up c q
              = (Page.load k up q last,
                 { c with pages := Page.load k up q last :: init,
                          upstreamReads := c.upstreamReads ++ [(q, k.PAGESIZE)] }))) := by
  cases hf : findPage q c.pages with
  | some pr =>
    obtain ⟨p, rest⟩ := pr
    obtain ⟨l1, l2, e1, e2, e3, e4⟩ := findPage_some_split hf
    rw [getPage_hit hf]
    refine ⟨rfl, Or.inl ⟨l1, p, l2, e1, e3, e4, ?_⟩⟩
    rw [e2]
  | none =>
    have hne := findPage_none hf
    rw [getPage_miss hf]
    refine ⟨rfl, Or.inr ?_⟩
    by_cases hl : c.pages.length = k.MAXPAGES
    · right
      refine ⟨hne, hl, ?_⟩
      cases hg : c.pages.getLast? with
      | none =>
        rw [List.getLast?_eq_none_iff] at hg
        rw [hg] at hl
        simp at hl
        omega
      | some last =>
        refine ⟨c.pages.dropLast, last, ?_, ?_⟩
        · exact (List.dropLast_append_getLast? last hg).symm
        · unfold missSlot
          rw [if_pos hl, hg]
    · left
      refine ⟨hne, hl, ?_⟩
      unfold missSlot
      rw [if_neg hl]

/-- C17 with 2 pages of 4 bytes: `getPage(0)` on the list of pages 4, 0 is a
hit that moves page 0 to the front. -/
theorem C17_move_to_front_witness :
    0 < smallConsts.MAXPAGES
    ∧ ((CacheReader.getPage smallConsts digits.toReader twoPages 0).2.pages.head?
        = some (CacheReader.getPage smallConsts digits.toReader twoPages 0).1
      ∧ ((∃ l1 p l2, twoPages.pages = l1 ++ p :: l2 ∧ p.offset = 0
            ∧ (∀ x ∈ l1, x.offset ≠ 0)
            ∧ CacheReader.getPage smallConsts digits.toReader twoPages 0
              = (p, { twoPages with pages := p :: (l1 ++ l2) }))
        ∨ ((∀ x ∈ twoPages.pages, x.offset ≠ 0)
            ∧ twoPages.pages.length ≠ smallConsts.MAXPAGES
            ∧ CacheReader.getPage smallConsts digits.toReader twoPages 0
              = (Page.load smallConsts digits.toReader 0
                   (smallConsts.newPage twoPages.pages.length),
                 { twoPages with
                     pages := Page.load smallConsts digits.toReader 0
                         (smallConsts.newPage twoPages.pages.length) :: twoPages.pages,
                     upstreamReads :=
                       twoPages.upstreamReads ++ [(0, smallConsts.PAGESIZE)] }))
        ∨ ((∀ x ∈ twoPages.pages, x.offset ≠ 0)
            ∧ twoPages.pages.length = smallConsts.MAXPAGES
            ∧ ∃ init last, twoPages.pages = init ++ [last]
              ∧ CacheReader.getPage smallConsts digits.toReader twoPages 0
                = (Page.load smallConsts digits.toReader 0 last,
                   { twoPages with
                       pages := Page.load smallConsts digits.toReader 0 last :: init,
                       upstreamReads :=
                         twoPages.upstreamReads ++ [(0, smallConsts.PAGESIZE)] })))) :=
  ⟨by decide, C17_move_to_front smallConsts (by decide) digits.toReader twoPages 0⟩

/-! ### Number of iterations of the read loop -/

theorem readLoop_count_zero {k : Consts} {up : Reader} {fuel : Nat} {c : CacheReader}
    {off : Nat} {r : Nat × List Byte × List Copy × CacheReader}
    (h : CacheReader.readLoop k up fuel c off 0 = some r) : r.2.2.1 = [] := by
  cases fuel with
  | zero => simp [CacheReader.readLoop] at h
  | succ n => rw [readLoop_zero] at h; cases h; rfl

theorem pagesCovering_le_div {k : Consts} (hk : k.WF) (n : Nat) :
    pagesCovering k n ≤ n / k.PAGESIZE + 1 := by
  unfold pagesCovering
  have hP := hk.pagesize_pos
  rw [← Nat.add_div_right _ hP]
  exact Nat.div_le_div_right (by omega)

/-- Advancing `off` keeps its remainder modulo `PAGESIZE` that of the sum, when
the sum does not wrap or `PAGESIZE` divides `2 ^ 64`. -/
theorem addWrap_mod {k : Consts} {off chunk count : Nat}
    (hw : off + count < 2 ^ 64 ∨ k.PAGESIZE ∣ 2 ^ 64) (hle : chunk ≤ count) :
    addWrap off chunk % k.PAGESIZE = (off + chunk) % k.PAGESIZE := by
  rcases hw with h | h
  · rw [addWrap_of_lt (by omega)]
  · unfold addWrap
    exact Nat.mod_mod_of_dvd _ h

theorem addWrap_bound {off chunk count : Nat} {P : Nat}
    (hw : off + count < 2 ^ 64 ∨ P ∣ 2 ^ 64) (hle : chunk ≤ count) :
    addWrap off chunk + (count - chunk) < 2 ^ 64 ∨ P ∣ 2 ^ 64 := by
  rcases hw with h | h
  · left; rw [addWrap_of_lt (by omega)]; omega
  · right; exact h

/-- From a page boundary the loop makes at most `ceil(count / PAGESIZE)`
iterations. -/
theorem readLoop_iterations_aligned {k : Consts} (hk : k.WF) {up : Reader} :
    ∀ (fuel : Nat) (c : CacheReader) (off count : Nat)
      (r : Nat × List Byte × List Copy × CacheReader),
      (off + count < 2 ^ 64 ∨ k.PAGESIZE ∣ 2 ^ 64) →
      (count = 0 ∨ off % k.PAGESIZE = 0) →
      CacheReader.readLoop k up fuel c off count = some r →
      r.2.2.1.length ≤ pagesCovering k count := by
  intro fuel
  induction fuel with
  | zero => intro c off count r _ _ h; simp [CacheReader.readLoop] at h
  | succ fuel ih =>
    intro c off count r hw hal h
    by_cases h0 : count = 0
    · subst h0
      rw [readLoop_count_zero h]
      exact Nat.zero_le _
    · have ha : off % k.PAGESIZE = 0 := by
        rcases hal with h | h
        · exact absurd h h0
        · exact h
      have hP := hk.pagesize_pos
      have hP2 := hk.pagesize_lt
      rw [readLoop_succ h0] at h
      simp only at h
      split at h
      · cases h
        by_cases hcp : count ≤ k.PAGESIZE
        · rw [pagesCovering_le hk (by omega) hcp]; simp
        · rw [pagesCovering_gt hk (by omega)]; simp
      · rename_i hfull
        have hl : (CacheReader.getPage k up c (off - off % k.PAGESIZE)).1.len
            = k.PAGESIZE := not_not.1 hfull
        rw [hl, ha] at h
        have hs : subWrap k.PAGESIZE 0 = k.PAGESIZE := by
          rw [subWrap_of_le (Nat.zero_le _) hP2]; rfl
        rw [hs] at h
        split at h
        · rename_i off1 out tr c1 heq
          cases h
          by_cases hcp : count ≤ k.PAGESIZE
          · have e : min k.PAGESIZE count = count := by omega
            rw [e, Nat.sub_self] at heq
            have := readLoop_count_zero heq
            simp only at this
            simp only [List.length_cons, this, List.length_nil]
            rw [pagesCovering_le hk (by omega) hcp]
          · have e : min k.PAGESIZE count = k.PAGESIZE := by omega
            rw [e] at heq
            have hal2 : addWrap off k.PAGESIZE % k.PAGESIZE = 0 := by
              rw [addWrap_mod hw (by omega), Nat.add_mod_right]; exact ha
            have := ih _ _ _ (off1, out, tr, c1) (addWrap_bound hw (by omega))
              (Or.inr hal2) heq
            simp only at this
            rw [pagesCovering_gt hk (by omega)]
            simp only [List.length_cons]
            omega
        · cases h

/-- From any offset the loop makes at most `count / PAGESIZE + 2` iterations. -/
theorem readLoop_iterations {k : Consts} (hk : k.WF) {up : Reader}
    {fuel : Nat} {c : CacheReader} {off count : Nat}
    {r : Nat × List Byte × List Copy × CacheReader}
    (hw : off + count < 2 ^ 64 ∨ k.PAGESIZE ∣ 2 ^ 64)
    (h : CacheReader.readLoop k up fuel c off count = some r) :
    r.2.2.1.length ≤ count / k.PAGESIZE + 2 := by
  cases fuel with
  | zero => simp [CacheReader.readLoop] at h
  | succ fuel =>
    by_cases h0 : count = 0
    · subst h0
      rw [readLoop_count_zero h]
      exact Nat.zero_le _
    · have hP := hk.pagesize_pos
      have hP2 := hk.pagesize_lt
      have ha : off % k.PAGESIZE < k.PAGESIZE := Nat.mod_lt _ hP
      rw [readLoop_succ h0] at h
      simp only at h
      split at h
      · cases h
        simp
      · rename_i hfull
        have hl : (CacheReader.getPage k up c (off - off % k.PAGESIZE)).1.len
            = k.PAGESIZE := not_not.1 hfull
        rw [hl] at h
        have hs : subWrap k.PAGESIZE (off % k.PAGESIZE)
            = k.PAGESIZE - off % k.PAGESIZE := subWrap_of_le (by omega) hP2
        rw [hs] at h
        split at h
        · rename_i off1 out tr c1 heq
          cases h
          simp only [List.length_cons]
          by_cases hcp : count ≤ k.PAGESIZE - off % k.PAGESIZE
          · have e : min (k.PAGESIZE - off % k.PAGESIZE) count = count := by omega
            rw [e, Nat.sub_self] at heq
            have := readLoop_count_zero heq
            simp only at this
            rw [this]
            simp
          · have e : min (k.PAGESIZE - off % k.PAGESIZE) count
                = k.PAGESIZE - off % k.PAGESIZE := by omega
            rw [e] at heq
            have hal2 : addWrap off (k.PAGESIZE - off % k.PAGESIZE) % k.PAGESIZE = 0 := by
              rw [addWrap_mod hw (by omega)]
              have e2 : off + (k.PAGESIZE - off % k.PAGESIZE)
                  = (off - off % k.PAGESIZE) + k.PAGESIZE := by
                have := Nat.mod_le off k.PAGESIZE
                omega
              rw [e2, Nat.add_mod_right]
              exact sub_mod_self_mod _ _
            have h1 := readLoop_iterations_aligned hk _ _ _ _ (off1, out, tr, c1)
              (addWrap_bound hw (by omega)) (Or.inr hal2) heq
            simp only at h1
            have h2 := pagesCovering_le_div hk (count - (k.PAGESIZE - off % k.PAGESIZE))
            have h3 : (count - (k.PAGESIZE - off % k.PAGESIZE)) / k.PAGESIZE
                ≤ count / k.PAGESIZE := Nat.div_le_div_right (Nat.sub_le _ _)
            omega
        · cases h

/-- Every iteration but the last meets a full page, and an iteration on a
full page copies at least one byte. -/
theorem readLoop_copies {k : Consts} (hk : k.WF) {up : Reader} :
    ∀ (fuel : Nat) (c : CacheReader) (off count : Nat)
      (r : Nat × List Byte × List Copy × CacheReader),
      CacheReader.readLoop k up fuel c off count = some r →
      (∀ cp ∈ r.2.2.1, cp.len ≠ k.PAGESIZE ∨ (0 < cp.chunk ∧ cp.chunk ≤ k.PAGESIZE))
      ∧ ∀ cp ∈ r.2.2.1.dropLast, cp.len = k.PAGESIZE := by
  intro fuel
  induction fuel with
  | zero => intro c off count r h; simp [CacheReader.readLoop] at h
  | succ fuel ih =>
    intro c off count r h
    by_cases h0 : count = 0
    · subst h0
      rw [readLoop_count_zero h]
      simp
    · rw [readLoop_succ h0] at h
      simp only at h
      split at h
      · rename_i hshort
        cases h
        refine ⟨?_, by simp⟩
        intro cp hcp
        rw [List.mem_singleton] at hcp
        subst hcp
        exact Or.inl hshort
      · rename_i hfull
        have hl : (CacheReader.getPage k up c (off - off % k.PAGESIZE)).1.len
            = k.PAGESIZE := not_not.1 hfull
        split at h
        · rename_i off1 out tr c1 heq
          cases h
          obtain ⟨i1, i2⟩ := ih _ _ _ (off1, out, tr, c1) heq
          simp only at i1 i2
          have hpos := chunk_pos_of_full hk off h0
          have hP : off % k.PAGESIZE < k.PAGESIZE := Nat.mod_lt _ hk.pagesize_pos
          have hsub := subWrap_of_le (le_of_lt hP) hk.pagesize_lt
          constructor
          · intro cp hcp
            rcases List.mem_cons.1 hcp with rfl | hcp
            · right
              simp only
              rw [hl]
              exact ⟨hpos, by rw [hsub]; omega⟩
            · exact i1 cp hcp
          · intro cp hcp
            simp only at hcp
            cases tr with
            | nil => simp at hcp
            | cons t tr =>
              rw [List.dropLast_cons₂] at hcp
              rcases List.mem_cons.1 hcp with rfl | hcp
              · exact hl
              · exact i2 cp hcp
        · cases h

/-- C19: the loop of `read` returns, after at most
`count / PAGESIZE + 2` iterations that reach `getPage`; an iteration on a full
page copies at least one byte, and only the last iteration can meet a page
with `len != PAGESIZE`.  The bound is for reads that do not wrap around the
64 bit offsets, or a `PAGESIZE` that divides `2 ^ 64` (any power of two). -/
theorem C19_read_loop_terminates (k : Consts) (hk : k.WF) (up : Reader)
    (c : CacheReader) (off count : Nat)
    (hw : off + count < 2 ^ 64 ∨ k.PAGESIZE ∣ 2 ^ 64) :
    ∃ r c1, CacheReader.read k up c off count = some (r, c1)
      ∧ r.copies.length ≤ count / k.PAGESIZE + 2
      ∧ (∀ cp ∈ r.copies, cp.len ≠ k.PAGESIZE ∨ (0 < cp.chunk ∧ cp.chunk ≤ k.PAGESIZE))
      ∧ ∀ cp ∈ r.copies.dropLast, cp.len = k.PAGESIZE := by
  obtain ⟨⟨r, c1⟩, hr⟩ := read_isSome hk up c off count
  obtain ⟨off1, hloop⟩ := read_copies hr
  have h1 := readLoop_iterations hk hw hloop
  obtain ⟨h2, h3⟩ := readLoop_copies hk _ _ _ _ _ hloop
  exact ⟨r, c1, hr, h1, h2, h3⟩

/-- C19 with pages of 4 bytes over "0123456789": `read(3, 6)` makes 3
iterations, `6 / 4 + 2`. -/
theorem C19_read_loop_terminates_witness :
    scenarioConsts.WF ∧ (3 + 6 < 2 ^ 64 ∨ scenarioConsts.PAGESIZE ∣ 2 ^ 64)
    ∧ ∃ r c1, CacheReader.read scenarioConsts digits.toReader CacheReader.empty 3 6
        = some (r, c1)
      ∧ r.copies.length ≤ 6 / scenarioConsts.PAGESIZE + 2
      ∧ (∀ cp ∈ r.copies,
          cp.len ≠ scenarioConsts.PAGESIZE
            ∨ (0 < cp.chunk ∧ cp.chunk ≤ scenarioConsts.PAGESIZE))
      ∧ ∀ cp ∈ r.copies.dropLast, cp.len = scenarioConsts.PAGESIZE :=
  ⟨scenarioConsts_wf, Or.inl (by decide),
   C19_read_loop_terminates scenarioConsts scenarioConsts_wf digits.toReader
     CacheReader.empty 3 6 (Or.inl (by decide))⟩

/-! ### FileReader::size -/

theorem FileReader.size_of_known {f : FileReader} (h : f.fileSize ≠ 2 ^ 64 - 1)
    (a : Option Nat) : FileReader.size a f = (some f.fileSize, f) := by
  unfold FileReader.size; rw [if_neg h]

theorem FileReader.sizes_of_known {f : FileReader} (h : f.fileSize ≠ 2 ^ 64 - 1) :
    ∀ (later : List (Option Nat)),
      FileReader.sizes later f = (later.map (fun _ => some f.fileSize), f) := by
  intro later
  induction later with
  | nil => rfl
  | cons a later ih =>
    rw [FileReader.sizes, FileReader.size_of_known h]
    simp only [ih, List.map_cons]

/-- C20: once `size()` has returned `s` (never the pattern of `-1`), every
later `size()` returns `s` and leaves the state as it is, whatever `fstat`
would answer: no `fstat` is issued.  On a reader whose size is unknown, a
failing `fstat` makes `size()` raise and leaves the size unknown, and the next
call issues `fstat` again. -/
theorem C20_size_memoized (f f1 g : FileReader) (a b : Option Nat) (s : Nat)
    (later : List (Option Nat))
    (h1 : FileReader.size a f = (some s, f1)) (hs : s ≠ 2 ^ 64 - 1)
    (hg : g.fileSize = 2 ^ 64 - 1) :
    FileReader.sizes later f1 = (later.map (fun _ => some s), f1)
    ∧ FileReader.size none g = (none, { g with fstatCalls := g.fstatCalls + 1 })
    ∧ (FileReader.size none g).2.fileSize = 2 ^ 64 - 1
    ∧ (FileReader.size b (FileReader.size none g).2).2.fstatCalls = g.fstatCalls + 2 := by
  have hf1 : f1.fileSize = s := by
    unfold FileReader.size at h1
    split at h1
    · split at h1
      · cases h1
      · cases h1; rfl
    · cases h1; rfl
  have hnone : FileReader.size none g
      = (none, { g with fstatCalls := g.fstatCalls + 1 }) := by
    unfold FileReader.size; rw [if_pos hg]
  refine ⟨?_, hnone, ?_, ?_⟩
  · have := FileReader.sizes_of_known (f := f1) (by rw [hf1]; exact hs) later
    rw [hf1] at this
    exact this
  · rw [hnone]; exact hg
  · rw [hnone]
    unfold FileReader.size
    simp only
    rw [if_pos hg]
    cases b <;> rfl

/-- C20 on a new reader: `fstat` gives 7, later calls return 7 whatever
`fstat` would give. -/
theorem C20_size_memoized_witness :
    FileReader.size (some 7) FileReader.new = (some 7, { fileSize := 7, fstatCalls := 1 })
    ∧ 7 ≠ 2 ^ 64 - 1 ∧ FileReader.new.fileSize = 2 ^ 64 - 1
    ∧ (FileReader.sizes [none, some 9, some 7] { fileSize := 7, fstatCalls := 1 }
        = ([none, some 9, some 7].map (fun _ => some 7), { fileSize := 7, fstatCalls := 1 })
      ∧ FileReader.size none FileReader.new
        = (none, { FileReader.new with fstatCalls := FileReader.new.fstatCalls + 1 })
      ∧ (FileReader.size none FileReader.new).2.fileSize = 2 ^ 64 - 1
      ∧ (FileReader.size (some 3) (FileReader.size none FileReader.new).2).2.fstatCalls
        = FileReader.new.fstatCalls + 2) :=
  ⟨by decide, by decide, by decide,
   C20_size_memoized FileReader.new { fileSize := 7, fstatCalls := 1 } FileReader.new
     (some 7) (some 3) 7 [none, some 9, some 7] (by decide) (by decide) (by decide)⟩

/-! ### Distinct offsets when the loads succeed -/

theorem missSlot_sublist (k : Consts) (pages : List Page) :
    (missSlot k pages).2.Sublist pages := by
  unfold missSlot
  by_cases hl : pages.length = k.MAXPAGES
  · rw [if_pos hl]
    cases hg : pages.getLast? with
    | none => exact List.Sublist.refl _
    | some p => exact List.dropLast_sublist _
  · rw [if_neg hl]

/-- A `getPage` call whose upstream read succeeds keeps the recorded offsets
pairwise distinct. -/
theorem getPage_offsets_nodup {k : Consts} {up : Reader} (c : CacheReader) (q : Nat)
    (hup : ∃ res, up.read q k.PAGESIZE = some res)
    (h : (c.pages.map (·.offset)).Nodup) :
    ((CacheReader.getPage k up c q).2.pages.map (·.offset)).Nodup := by
  cases hf : findPage q c.pages with
  | some pr =>
    obtain ⟨p, rest⟩ := pr
    rw [getPage_hit hf]
    exact ((findPage_some hf).2.map _).nodup_iff.2 h
  | none =>
    obtain ⟨res, hres⟩ := hup
    rw [getPage_miss hf]
    simp only [List.map_cons, Page.load_offset hres]
    rw [List.nodup_cons]
    constructor
    · intro hmem
      obtain ⟨p, hp, hpo⟩ := List.mem_map.1 hmem
      exact findPage_none hf p ((missSlot_sublist k c.pages).subset hp) hpo
    · exact h.sublist ((missSlot_sublist k c.pages).map _)

/-- Over an upstream whose reads all succeed, every state reached from the
empty cache records pairwise distinct offsets. -/
theorem offsets_nodup_of_succeeds {k : Consts} {up : Reader}
    (hup : ∀ o n, ∃ res, up.read o n = some res) (ops : List Op) (c : CacheReader)
    (h : CacheReader.run k up ops CacheReader.empty = some c) : c.offsets.Nodup := by
  unfold CacheReader.offsets
  exact run_pages_inv (fun l : List Page => (l.map (·.offset)).Nodup)
    (fun c q hc => getPage_offsets_nodup c q (hup q k.PAGESIZE) hc) ops _ _ h
    (by simp [CacheReader.empty])

end Pstack
